import Mathlib

/-!
Shallow embedding of the `GridStore` engine of `src/wasm/src/lib.rs`
(an in-memory columnar store with a trigram index and a cached view).

Modelling conventions:

* Rust `String` values are modelled as byte sequences (`List Nat`); the
  ASCII literals appearing in the development are written with `bs`.
  `str::to_lowercase` is modelled as bytewise ASCII lowercasing, which
  agrees with Rust on the ASCII texts that the trigram index targets.
* `f64` cells are modelled as `Option ℚ`: `none` is NaN, `some q` is a
  non-NaN value.  `f64::partial_cmp` returns `None` exactly when one side
  is NaN; `numCmp` mirrors `partial_cmp(..).unwrap_or(Equal)`.
* `HashMap` is modelled as an association list with replace-or-append
  update, `HashSet<u32>` as `Finset ℕ`.  The iteration order of a
  `HashSet` (used when `TrigramIndex::search` collects its result vector)
  is unspecified in Rust, so it appears as an explicit enumeration
  parameter `e : Finset ℕ → List ℕ` of the view materialisation.
* Dynamic JS values reaching the store through wasm-bindgen are modelled
  by `JVal`; JS objects by association lists `JObj`.
* Fallible operations return `Except GErr _`; the `…S` wrappers pair the
  resulting store with the result, keeping the pre-state on the error
  path exactly as the Rust methods do (in this code every error return
  happens before the first mutation of `self`).
* Rust runtime panics on out-of-range slicing are modelled as `none`
  results (`viewIndicesS`, `getVisibleRowsS`); container indexing that is
  in range by construction is modelled with `get?`/`getD`.
-/

abbrev Bytes := List Nat

/-- Byte-string literal helper (every literal used here is ASCII, where
codepoints and UTF-8 bytes coincide). -/
def bs (s : String) : Bytes := s.data.map Char.toNat

/-- ASCII lowercase of one byte; models the case folding applied by the
source (`to_lowercase`) on the ASCII texts the index handles. -/
def asciiLower (b : Nat) : Nat := if 65 ≤ b ∧ b ≤ 90 then b + 32 else b

def lowerB (s : Bytes) : Bytes := s.map asciiLower

/-- Does `needle` begin `hay`?  Helper for `containsB`. -/
def beginsWith : Bytes → Bytes → Bool
  | [], _ => true
  | _ :: _, [] => false
  | a :: as', b :: bs' => a == b && beginsWith as' bs'

/-- `str::contains` on byte strings: `needle` occurs contiguously in
`hay`. -/
def containsB : Bytes → Bytes → Bool
  | hay, needle =>
    beginsWith needle hay ||
      match hay with
      | [] => false
      | _ :: t => containsB t needle

abbrev Trigram := Nat × Nat × Nat

/-- All consecutive 3-byte windows of a byte string. -/
def triWindows : Bytes → List Trigram
  | a :: b :: c :: rest => (a, b, c) :: triWindows (b :: c :: rest)
  | _ => []

/-- `TrigramIndex::generate_trigrams`: lowercase the text, then emit every
consecutive 3-byte window (inputs shorter than 3 bytes produce none). -/
def generateTrigrams (text : Bytes) : List Trigram := triWindows (lowerB text)

/-- Dynamic JS values as seen through wasm-bindgen. -/
inductive JVal
  | null
  | jsUndefined
  | jbool (b : Bool)
  | num (q : Option ℚ)
  | str (s : Bytes)
  deriving DecidableEq

/-- `JsValue::as_string`. -/
def asString : JVal → Option Bytes
  | .str s => some s
  | _ => none

/-- `JsValue::as_f64` (a JS number, possibly NaN). -/
def asF64 : JVal → Option (Option ℚ)
  | .num q => some q
  | _ => none

/-- `JsValue::is_truthy` (JS truthiness). -/
def truthy : JVal → Bool
  | .null => false
  | .jsUndefined => false
  | .jbool b => b
  | .num q => match q with
    | none => false
    | some x => decide (x ≠ 0)
  | .str s => decide (s ≠ [])

/-- Association-list lookup (first matching key). -/
def alookup {α β : Type} [DecidableEq α] : List (α × β) → α → Option β
  | [], _ => none
  | e :: rest, k => if e.1 = k then some e.2 else alookup rest k

/-- Association-list insert-or-replace: models `HashMap::insert` (the
first entry with the key is replaced in place; a fresh key is appended). -/
def aupd {α β : Type} [DecidableEq α] : List (α × β) → α → β → List (α × β)
  | [], k, v => [(k, v)]
  | e :: rest, k, v => if e.1 = k then (k, v) :: rest else e :: aupd rest k v

/-- A JS object: keys (assumed distinct, as in a JS object) to values. -/
abbrev JObj := List (Bytes × JVal)

/-- `Reflect::get`: a missing key reads as `undefined`. -/
def jget (o : JObj) (k : Bytes) : JVal := (alookup o k).getD JVal.jsUndefined

/-- `ColumnData`: typed columnar storage.  NaN (`none`) is the numeric
null, the empty string the string null. -/
inductive ColData
  | strs (v : List Bytes)
  | nums (v : List (Option ℚ))
  deriving DecidableEq

def dataLen : ColData → Nat
  | .strs v => v.length
  | .nums v => v.length

/-- `ColumnData::get_string`. -/
def colGetString : ColData → Nat → Option Bytes
  | .strs v, i => v.get? i
  | .nums _, _ => none

/-- `ColumnData::get_number` (filters NaN away). -/
def colGetNumber : ColData → Nat → Option ℚ
  | .nums v, i => (v.get? i).bind id
  | .strs _, _ => none

/-- `ColumnData::to_js_value`: null-aware projection to the host value. -/
def toJsValue : ColData → Nat → JVal
  | .strs v, i =>
    match v.get? i with
    | some s => .str s
    | none => .null
  | .nums v, i =>
    match v.get? i with
    | some (some q) => .num (some q)
    | _ => .null

/-- The per-column push performed by `insert_row_internal`: a value of the
wrong type is coerced to the column's null (`""` resp. NaN). -/
def pushVal (d : ColData) (v : JVal) : ColData :=
  match d with
  | .strs w => .strs (w ++ [(asString v).getD []])
  | .nums w => .nums (w ++ [(asF64 v).getD none])

/-- `GridStore::set_cell_value`: an in-bounds typed write with the same
null coercion; out of bounds is a no-op. -/
def setCellData (d : ColData) (i : Nat) (v : JVal) : ColData :=
  match d with
  | .strs w => if i < w.length then .strs (w.set i ((asString v).getD [])) else .strs w
  | .nums w => if i < w.length then .nums (w.set i ((asF64 v).getD none)) else .nums w

structure GCol where
  name : Bytes
  data : ColData
  indexed : Bool
  deriving DecidableEq

inductive SortDir
  | asc
  | desc
  | nosort
  deriving DecidableEq

structure ViewState where
  filterText : Bytes
  sortColumn : Option Nat
  sortDir : SortDir
  cachedView : Option (List Nat)
  deriving DecidableEq

def viewNew : ViewState := ⟨[], none, .nosort, none⟩

/-- The trigram posting map: trigram to set of row indices. -/
abbrev TriIdx := List (Trigram × Finset ℕ)

/-- Posting list of a trigram (an absent key reads as the empty set). -/
def lookupTri (idx : TriIdx) (t : Trigram) : Finset ℕ :=
  (alookup idx t).getD ∅

/-- `TrigramIndex::add`. -/
def addTri (row : ℕ) (text : Bytes) (idx : TriIdx) : TriIdx :=
  (generateTrigrams text).foldl (fun acc t => aupd acc t (insert row (lookupTri acc t))) idx

/-- `TrigramIndex::remove` (empty posting sets are kept, and only existing
keys are touched, as in the source). -/
def removeTri (row : ℕ) (text : Bytes) (idx : TriIdx) : TriIdx :=
  (generateTrigrams text).foldl
    (fun acc t =>
      match alookup acc t with
      | some pst => aupd acc t (pst.erase row)
      | none => acc) idx

/-- `TrigramIndex::search` at the set level: an empty result for queries
shorter than 3 bytes, otherwise the intersection of the query trigrams'
posting lists.  The order in which the Rust code linearises this set is
unspecified (HashSet iteration) and is supplied separately. -/
def searchIdx (idx : TriIdx) (query : Bytes) : Finset ℕ :=
  match generateTrigrams query with
  | [] => ∅
  | t :: ts => ts.foldl (fun acc u => acc ∩ lookupTri idx u) (lookupTri idx t)

structure GridStore where
  columns : List GCol
  colIndex : List (Bytes × Nat)
  rowCount : Nat
  idColumn : Nat
  idToRow : List (Bytes × Nat)
  deleted : List Bool
  trigram : TriIdx
  indexedColumns : List Nat
  view : ViewState
  deriving DecidableEq

/-- Error kinds of the fallible operations (the source reports them as
`JsError` values with these messages). -/
inductive GErr
  | badName
  | badType
  | unknownType (t : Bytes)
  | panicked
  | missingId
  | duplicateId (id : Bytes)
  | notFound (id : Bytes)
  deriving DecidableEq

/-- The schema-reading loop of `GridStore::new`, with the running column
list, name-to-position map, primary-key position and indexed-column list
as accumulators.  Mirrors the source: the only validation is that each
column has a string `name`, a string `type`, and a known type; a truthy
`primaryKey` overwrites `id_column` (default 0). -/
def buildSchema : List JObj → Nat → List GCol → List (Bytes × Nat) → Nat → List Nat →
    Except GErr (List GCol × List (Bytes × Nat) × Nat × List Nat)
  | [], _, cols, cidx, idc, icols => .ok (cols, cidx, idc, icols)
  | colDef :: rest, i, cols, cidx, idc, icols =>
    match asString (jget colDef (bs "name")) with
    | none => .error .badName
    | some name =>
      match asString (jget colDef (bs "type")) with
      | none => .error .badType
      | some ty =>
        let isPrimary := truthy (jget colDef (bs "primaryKey"))
        let isIdx := truthy (jget colDef (bs "indexed"))
        match (if ty = bs "string" then some (ColData.strs [])
               else if ty = bs "number" ∨ ty = bs "integer" then some (ColData.nums [])
               else none) with
        | none => .error (.unknownType ty)
        | some data =>
          buildSchema rest (i + 1)
            (cols ++ [⟨name, data, isIdx⟩])
            (aupd cidx name i)
            (if isPrimary then i else idc)
            (icols ++ if isIdx then [i] else [])

/-- `GridStore::new`. -/
def gridNew (schema : List JObj) : Except GErr GridStore :=
  (buildSchema schema 0 [] [] 0 []).map fun acc =>
    { columns := acc.1
      colIndex := acc.2.1
      rowCount := 0
      idColumn := acc.2.2.1
      idToRow := []
      deleted := []
      trigram := []
      indexedColumns := acc.2.2.2
      view := viewNew }

/-- The string value of column `ci` at a row (the
`self.columns[col_idx].get_string(row)` reads of the source; positions
reaching this are in range by construction in `gridNew`). -/
def colText (s : GridStore) (rowIdx ci : Nat) : Option Bytes :=
  (s.columns.get? ci).bind fun c => colGetString c.data rowIdx

/-- `GridStore::get_indexed_text`: the string values of the indexed
columns joined by a single space (a number column contributes nothing,
its `get_string` being `None`). -/
def indexedText (s : GridStore) (rowIdx : Nat) : Bytes :=
  s.indexedColumns.foldl
    (fun text ci =>
      match colText s rowIdx ci with
      | some str => (if text ≠ [] then text ++ [32] else text) ++ str
      | none => text) []

/-- The cell write of `update`/`batch_update`: `self.columns[col_idx]` is
in range whenever `ci` comes from `colIndex` (as in the source). -/
def setCellValue (s : GridStore) (rowIdx ci : Nat) (v : JVal) : GridStore :=
  match s.columns.get? ci with
  | some c => { s with columns := s.columns.set ci { c with data := setCellData c.data rowIdx v } }
  | none => s

/-- `GridStore::insert_row_internal`.  The error returns (missing id,
duplicate id) happen before any mutation, as in the source. -/
def insertRowInternal (s : GridStore) (row : JObj) : Except GErr (GridStore × Nat) :=
  let rowIdx := s.rowCount
  match (s.columns.get? s.idColumn).map GCol.name with
  | none => .error .panicked
  | some idColName =>
    match asString (jget row idColName) with
    | none => .error .missingId
    | some id =>
      if (alookup s.idToRow id).isSome then .error (.duplicateId id)
      else
        let s' : GridStore :=
          { s with
            columns := s.columns.map fun c => { c with data := pushVal c.data (jget row c.name) }
            idToRow := aupd s.idToRow id rowIdx
            deleted := s.deleted ++ [false]
            rowCount := s.rowCount + 1 }
        .ok ({ s' with trigram := addTri rowIdx (indexedText s' rowIdx) s'.trigram }, rowIdx)

/-- `GridStore::insert`: internal insert, then view invalidation.  On
error the store is returned unchanged (the Rust `?` early return). -/
def insertS (s : GridStore) (row : JObj) : GridStore × Except GErr Nat :=
  match insertRowInternal s row with
  | .ok (s', rowIdx) => ({ s' with view := { s'.view with cachedView := none } }, .ok rowIdx)
  | .error e => (s, .error e)

/-- The cell-writing loop shared by `update` (`skipId = false`) and
`batch_update` (`skipId = true`, which skips the literal key `"id"`).
Keys that do not name a column are ignored. -/
def applyCellChanges (s : GridStore) (rowIdx : Nat) (changes : JObj) (skipId : Bool) : GridStore :=
  changes.foldl
    (fun acc kv =>
      if skipId ∧ kv.1 = bs "id" then acc
      else
        match alookup acc.colIndex kv.1 with
        | some ci => setCellValue acc rowIdx ci (jget changes kv.1)
        | none => acc) s

/-- One row update: read the old indexed text, write the cells, read the
new indexed text, and update the trigram index when the text changed. -/
def updateRowCore (s : GridStore) (rowIdx : Nat) (changes : JObj) (skipId : Bool) : GridStore :=
  let oldText := indexedText s rowIdx
  let s1 := applyCellChanges s rowIdx changes skipId
  let newText := indexedText s1 rowIdx
  { s1 with
    trigram :=
      if oldText ≠ newText then addTri rowIdx newText (removeTri rowIdx oldText s1.trigram)
      else s1.trigram }

/-- `GridStore::update`: note that the row is looked up through
`id_to_row` (which never forgets tombstoned rows) and that, unlike
`batch_update`, no key — not even `"id"` — is skipped. -/
def updateS (s : GridStore) (id : Bytes) (changes : JObj) : GridStore × Except GErr Unit :=
  match alookup s.idToRow id with
  | none => (s, .error (.notFound id))
  | some rowIdx =>
    let s1 := updateRowCore s rowIdx changes false
    ({ s1 with view := { s1.view with cachedView := none } }, .ok ())

/-- `GridStore::batch_update`: unknown or non-string ids are skipped, the
applied-update count is returned, and the view is invalidated only when
the count is positive. -/
def batchUpdateS (s : GridStore) (updates : List JObj) : GridStore × Nat :=
  let acc := updates.foldl
    (fun (acc : GridStore × Nat) u =>
      match asString (jget u (bs "id")) with
      | none => acc
      | some id =>
        match alookup acc.1.idToRow id with
        | none => acc
        | some rowIdx => (updateRowCore acc.1 rowIdx u true, acc.2 + 1)) (s, 0)
  (if 0 < acc.2 then { acc.1 with view := { acc.1.view with cachedView := none } } else acc.1, acc.2)

/-- `GridStore::delete`: soft delete.  The id stays in `id_to_row`. -/
def deleteS (s : GridStore) (id : Bytes) : GridStore × Except GErr Unit :=
  match alookup s.idToRow id with
  | none => (s, .error (.notFound id))
  | some rowIdx =>
    ({ s with
        trigram := removeTri rowIdx (indexedText s rowIdx) s.trigram
        deleted := s.deleted.set rowIdx true
        view := { s.view with cachedView := none } }, .ok ())

/-- `GridStore::set_filter`: compares the stored (lowercased) filter with
the raw argument, stores the lowercased argument, and invalidates only on
a difference. -/
def setFilterG (s : GridStore) (search : Bytes) : GridStore :=
  if s.view.filterText ≠ search then
    { s with view := { s.view with filterText := lowerB search, cachedView := none } }
  else s

/-- `GridStore::set_sort`. -/
def setSortG (s : GridStore) (column : Bytes) (dir : SortDir) : GridStore :=
  let ci := alookup s.colIndex column
  if s.view.sortColumn ≠ ci ∨ s.view.sortDir ≠ dir then
    { s with view := { s.view with sortColumn := ci, sortDir := dir, cachedView := none } }
  else s

/-- `GridStore::row_matches_filter`: the verification scan.  Note it
tests each indexed column's text separately, not their concatenation. -/
def rowMatchesFilter (s : GridStore) (rowIdx : Nat) : Bool :=
  if s.view.filterText = [] then true
  else
    s.indexedColumns.any fun ci =>
      match colText s rowIdx ci with
      | some text => containsB (lowerB text) s.view.filterText
      | none => false

def liveAt (s : GridStore) (r : Nat) : Bool := !(s.deleted.getD r false)

/-- The string comparator of the sort: lexicographic byte order
(`String`'s `Ord` in Rust). -/
def bytesCmp : Bytes → Bytes → Ordering
  | [], [] => .eq
  | [], _ :: _ => .lt
  | _ :: _, [] => .gt
  | a :: as', b :: bs' => if a < b then .lt else if b < a then .gt else bytesCmp as' bs'

/-- The number comparator of the sort:
`partial_cmp(..).unwrap_or(Equal)` — any comparison involving NaN
(`none`) yields `Equal`. -/
def numCmp (a b : Option ℚ) : Ordering :=
  match a, b with
  | some x, some y => if x < y then .lt else if y < x then .gt else .eq
  | _, _ => .eq

def dirApply (dir : SortDir) (c : Ordering) : Ordering :=
  if dir = .desc then c.swap else c

/-- Insert `x` after every element `y` of the (sorted) list with
`le y x`. -/
def insSorted (le : Nat → Nat → Bool) (x : Nat) : List Nat → List Nat
  | [] => [x]
  | y :: ys => if le y x then y :: insSorted le x ys else x :: y :: ys

/-- A stable sort (insertion sort keeping equal elements in input
order), modelling Rust's stable `sort_by`. -/
def stableSortBy (cmp : Nat → Nat → Ordering) (l : List Nat) : List Nat :=
  l.foldl (fun acc x => insSorted (fun a b => !(cmp a b == Ordering.gt)) x acc) []

/-- The seed stage of `GridStore::ensure_view`: all live rows when the
filter is empty; a verified full scan when the trigram candidates are
empty and the filter is shorter than 3 bytes; otherwise the verified
trigram candidates, in the (unspecified) enumeration order `e`. -/
def viewSeedStage (e : Finset ℕ → List ℕ) (s : GridStore) : List Nat :=
  if s.view.filterText = [] then
    (List.range s.rowCount).filter fun i => liveAt s i
  else
    let candList := e (searchIdx s.trigram s.view.filterText)
    if candList = [] ∧ s.view.filterText.length < 3 then
      (List.range s.rowCount).filter fun i => liveAt s i && rowMatchesFilter s i
    else
      candList.filter fun i => liveAt s i && rowMatchesFilter s i

/-- Sorting by the column at `ci` under `dir`: a stable sort by the
column comparator, reversed for `Desc`, skipped for `None`. -/
def viewSortApply (s : GridStore) (ci : Nat) (dir : SortDir) (seed : List Nat) : List Nat :=
  if dir = .nosort then seed
  else
    match (s.columns.get? ci).map GCol.data with
    | some (.strs v) =>
      stableSortBy (fun a b => dirApply dir (bytesCmp (v.getD a []) (v.getD b []))) seed
    | some (.nums v) =>
      stableSortBy (fun a b => dirApply dir (numCmp (v.getD a none) (v.getD b none))) seed
    | none => seed

/-- The sort stage of `GridStore::ensure_view`: sort when a sort column is
set, otherwise the seed unchanged. -/
def viewSortStage (s : GridStore) (seed : List Nat) : List Nat :=
  match s.view.sortColumn with
  | some ci => viewSortApply s ci s.view.sortDir seed
  | none => seed

/-- `GridStore::ensure_view`.  `e` linearises the candidate `HashSet`
returned by `TrigramIndex::search` (its iteration order is unspecified in
Rust). -/
def ensureView (e : Finset ℕ → List ℕ) (s : GridStore) : GridStore :=
  if s.view.cachedView.isSome then s
  else { s with view := { s.view with cachedView := some (viewSortStage s (viewSeedStage e s)) } }

/-- `GridStore::view_count`. -/
def viewCountS (e : Finset ℕ → List ℕ) (s : GridStore) : GridStore × Nat :=
  let s' := ensureView e s
  (s', (s'.view.cachedView.getD []).length)

/-- `GridStore::view_indices`: slices `cached_view[start..end]` with
`end = min (start + count) len`.  Rust's slice indexing panics when
`start > end` (that is, when `start` exceeds the view length); the panic
is modelled by `none`. -/
def viewIndicesS (e : Finset ℕ → List ℕ) (s : GridStore) (start count : Nat) :
    GridStore × Option (List Nat) :=
  if start ≤ min (start + count) (((ensureView e s).view.cachedView.getD []).length) then
    (ensureView e s,
      some ((((ensureView e s).view.cachedView.getD []).drop start).take
        (min (start + count) (((ensureView e s).view.cachedView.getD []).length) - start)))
  else (ensureView e s, none)

/-- `GridStore::row_to_js`. -/
def rowToJs (s : GridStore) (rowIdx : Nat) : List (Bytes × JVal) :=
  s.columns.map fun c => (c.name, toJsValue c.data rowIdx)

/-- `GridStore::get_visible_rows`: the same slice as `view_indices`
(including its panic), then per-row projection. -/
def getVisibleRowsS (e : Finset ℕ → List ℕ) (s : GridStore) (start count : Nat) :
    GridStore × Option (List (List (Bytes × JVal))) :=
  if start ≤ min (start + count) (((ensureView e s).view.cachedView.getD []).length) then
    (ensureView e s,
      some (((((ensureView e s).view.cachedView.getD []).drop start).take
          (min (start + count) (((ensureView e s).view.cachedView.getD []).length) - start)).map
        (rowToJs (ensureView e s))))
  else (ensureView e s, none)

/-- The `self.columns[col_idx].to_js_value(row)` read (positions reaching
it come from `colIndex` and are in range by construction). -/
def colJs (s : GridStore) (row ci : Nat) : JVal :=
  match s.columns.get? ci with
  | some c => toJsValue c.data row
  | none => .jsUndefined

/-- `GridStore::get_cell`: `undefined` for an unknown column name;
otherwise a null-aware projection. -/
def getCell (s : GridStore) (row : Nat) (column : Bytes) : JVal :=
  match alookup s.colIndex column with
  | some ci => colJs s row ci
  | none => .jsUndefined

/-- The mutating operations of claim C2's traces. -/
inductive Op
  | ins (row : JObj)
  | upd (id : Bytes) (changes : JObj)
  | bupd (updates : List JObj)
  | del (id : Bytes)

/-- Run one operation; on an error the store is left as it was. -/
def runOp (s : GridStore) : Op → GridStore
  | .ins row => (insertS s row).1
  | .upd id changes => (updateS s id changes).1
  | .bupd updates => (batchUpdateS s updates).1
  | .del id => (deleteS s id).1

def runOps (s : GridStore) (ops : List Op) : GridStore :=
  ops.foldl runOp s

instance {ε α : Type} [DecidableEq ε] [DecidableEq α] : DecidableEq (Except ε α) := fun x y =>
  match x, y with
  | .ok a, .ok b =>
    if h : a = b then isTrue (congrArg Except.ok h)
    else isFalse fun he => h (Except.ok.inj he)
  | .error a, .error b =>
    if h : a = b then isTrue (congrArg Except.error h)
    else isFalse fun he => h (Except.error.inj he)
  | .ok _, .error _ => isFalse fun he => Except.noConfusion he
  | .error _, .ok _ => isFalse fun he => Except.noConfusion he

/-- Unwrap a construction that is known to succeed (used only to build
concrete example stores). -/
def getOk (x : Except GErr GridStore) : GridStore :=
  match x with
  | .ok g => g
  | .error _ => ⟨[], [], 0, 0, [], [], [], [], viewNew⟩

/-- A valid linearisation of a `HashSet`: some list of exactly its
elements.  Rust guarantees no more than this about iteration order. -/
def validEnum (e : Finset ℕ → List ℕ) : Prop :=
  ∀ f : Finset ℕ, (e f).Nodup ∧ ∀ x, x ∈ e f ↔ x ∈ f

/-- One concrete valid linearisation (ascending), used for witnesses. -/
def ascEnum (f : Finset ℕ) : List ℕ :=
  (List.range (f.sup id + 1)).filter fun x => decide (x ∈ f)

theorem validEnum_ascEnum : validEnum ascEnum := by
  intro f
  refine ⟨List.Nodup.filter _ (List.nodup_range _), fun x => ?_⟩
  unfold ascEnum
  simp only [List.mem_filter, List.mem_range, decide_eq_true_eq]
  constructor
  · exact fun h => h.2
  · intro hx
    exact ⟨Nat.lt_succ_of_le (Finset.le_sup (f := id) hx), hx⟩

theorem validEnum_nil {e : Finset ℕ → List ℕ} (h : validEnum e) : e ∅ = [] := by
  apply List.eq_nil_iff_forall_not_mem.mpr
  intro a ha
  exact Finset.not_mem_empty a (((h ∅).2 a).mp ha)

section AssocLemmas

variable {α β : Type} [DecidableEq α]

theorem mem_aupd {m : List (α × β)} {k : α} {v : β} {p : α × β}
    (hp : p ∈ aupd m k v) : p ∈ m ∨ p = (k, v) := by
  induction m with
  | nil =>
    simp [aupd] at hp
    exact Or.inr hp
  | cons e rest ih =>
    obtain ⟨a, b⟩ := e
    by_cases he : a = k
    · subst he
      simp only [aupd, if_pos] at hp
      rcases List.mem_cons.mp hp with h | h
      · exact Or.inr h
      · exact Or.inl (List.mem_cons_of_mem _ h)
    · simp only [aupd, he, if_neg, not_false_iff] at hp
      rcases List.mem_cons.mp hp with h | h
      · exact Or.inl (h ▸ List.mem_cons_self _ _)
      · rcases ih h with h' | h'
        · exact Or.inl (List.mem_cons_of_mem _ h')
        · exact Or.inr h'

theorem alookup_aupd (m : List (α × β)) (k : α) (v : β) (k' : α) :
    alookup (aupd m k v) k' = if k' = k then some v else alookup m k' := by
  induction m with
  | nil =>
    by_cases h : k' = k
    · simp [aupd, alookup, h]
    · have h' : ¬ k = k' := fun hh => h hh.symm
      simp [aupd, alookup, h, h']
  | cons e rest ih =>
    obtain ⟨a, b⟩ := e
    by_cases he : a = k
    · subst he
      by_cases h : k' = a
      · subst h
        simp [aupd, alookup]
      · have ha' : ¬ a = k' := fun hh => h hh.symm
        simp [aupd, alookup, h, ha']
    · by_cases ha' : a = k'
      · have hk' : ¬ k' = k := fun hh => he (ha'.symm ▸ hh)
        simp [aupd, alookup, he, ha', hk']
      · simp [aupd, alookup, he, ha', ih]

theorem alookup_mem {m : List (α × β)} {k : α} {v : β} (h : alookup m k = some v) :
    (k, v) ∈ m := by
  induction m with
  | nil => simp [alookup] at h
  | cons e rest ih =>
    obtain ⟨a, b⟩ := e
    by_cases he : a = k
    · subst he
      simp [alookup] at h
      subst h
      exact List.mem_cons_self _ _
    · simp [alookup, he] at h
      exact List.mem_cons_of_mem _ (ih h)

theorem aupd_self {m : List (α × β)} {k : α} {v : β} (h : alookup m k = some v) :
    aupd m k v = m := by
  induction m with
  | nil => simp [alookup] at h
  | cons e rest ih =>
    obtain ⟨a, b⟩ := e
    by_cases he : a = k
    · subst he
      simp [alookup] at h
      subst h
      simp [aupd]
    · simp [alookup, he] at h
      simp [aupd, he, ih h]

theorem alookup_of_mem_nodup {m : List (α × β)} {k : α} {v : β}
    (hN : (m.map Prod.fst).Nodup) (hm : (k, v) ∈ m) : alookup m k = some v := by
  induction m with
  | nil => simp at hm
  | cons e rest ih =>
    obtain ⟨a, b⟩ := e
    simp only [List.map_cons, List.nodup_cons] at hN
    rcases List.mem_cons.mp hm with h | h
    · cases h
      simp [alookup]
    · have hne : ¬ a = k := by
        intro hk
        apply hN.1
        rw [hk]
        exact List.mem_map_of_mem Prod.fst h
      simp [alookup, hne, ih hN.2 h]

theorem keys_aupd_nodup {m : List (α × β)} {k : α} {v : β}
    (hN : (m.map Prod.fst).Nodup) : ((aupd m k v).map Prod.fst).Nodup := by
  induction m with
  | nil => simp [aupd]
  | cons e rest ih =>
    obtain ⟨a, b⟩ := e
    simp only [List.map_cons, List.nodup_cons] at hN
    by_cases he : a = k
    · subst he
      simpa [aupd] using List.nodup_cons.mpr hN
    · simp only [aupd, he, if_neg, not_false_iff, List.map_cons, List.nodup_cons]
      refine ⟨fun hmem => ?_, ih hN.2⟩
      rcases List.mem_map.mp hmem with ⟨p, hp, hfst⟩
      rcases mem_aupd hp with h | h
      · exact hN.1 (hfst ▸ List.mem_map_of_mem Prod.fst h)
      · rw [h] at hfst
        exact he hfst.symm

end AssocLemmas

theorem lookupTri_aupd (idx : TriIdx) (t : Trigram) (v : Finset ℕ) (u : Trigram) :
    lookupTri (aupd idx t v) u = if u = t then v else lookupTri idx u := by
  by_cases h : u = t <;> simp [lookupTri, alookup_aupd, h]

theorem lookupTri_addFold (row : ℕ) (l : List Trigram) (idx : TriIdx) (u : Trigram) :
    lookupTri (l.foldl (fun acc t => aupd acc t (insert row (lookupTri acc t))) idx) u =
      if u ∈ l then insert row (lookupTri idx u) else lookupTri idx u := by
  induction l generalizing idx with
  | nil => simp
  | cons t ts ih =>
    simp only [List.foldl_cons]
    rw [ih, lookupTri_aupd]
    by_cases hut : u = t
    · subst hut
      by_cases hu : u ∈ ts <;> simp [hu, lookupTri_aupd, Finset.insert_idem]
    · by_cases hu : u ∈ ts <;> simp [hu, hut, lookupTri_aupd, List.mem_cons]

theorem lookupTri_addTri (row : ℕ) (text : Bytes) (idx : TriIdx) (u : Trigram) :
    lookupTri (addTri row text idx) u =
      if u ∈ generateTrigrams text then insert row (lookupTri idx u) else lookupTri idx u :=
  lookupTri_addFold row (generateTrigrams text) idx u

theorem lookupTri_removeStep (row : ℕ) (acc : TriIdx) (t u : Trigram) :
    lookupTri
        (match alookup acc t with
         | some pst => aupd acc t (pst.erase row)
         | none => acc) u =
      if u = t then (lookupTri acc t).erase row else lookupTri acc u := by
  cases h : alookup acc t with
  | some pst =>
    have hval : lookupTri acc t = pst := by simp [lookupTri, h]
    by_cases hut : u = t <;> simp [lookupTri_aupd, hut, hval]
  | none =>
    have hval : lookupTri acc t = ∅ := by simp [lookupTri, h]
    by_cases hut : u = t <;> simp [hut, hval]

theorem lookupTri_removeFold (row : ℕ) (l : List Trigram) (idx : TriIdx) (u : Trigram) :
    lookupTri
        (l.foldl
          (fun acc t =>
            match alookup acc t with
            | some pst => aupd acc t (pst.erase row)
            | none => acc) idx) u =
      if u ∈ l then (lookupTri idx u).erase row else lookupTri idx u := by
  induction l generalizing idx with
  | nil => simp
  | cons t ts ih =>
    simp only [List.foldl_cons]
    rw [ih, lookupTri_removeStep]
    by_cases hut : u = t
    · subst hut
      by_cases hu : u ∈ ts <;> simp [hu, Finset.erase_idem]
    · by_cases hu : u ∈ ts <;> simp [hu, hut, List.mem_cons]

theorem lookupTri_removeTri (row : ℕ) (text : Bytes) (idx : TriIdx) (u : Trigram) :
    lookupTri (removeTri row text idx) u =
      if u ∈ generateTrigrams text then (lookupTri idx u).erase row else lookupTri idx u :=
  lookupTri_removeFold row (generateTrigrams text) idx u

theorem keys_addTri_nodup {row : ℕ} {text : Bytes} {idx : TriIdx}
    (h : (idx.map Prod.fst).Nodup) : ((addTri row text idx).map Prod.fst).Nodup := by
  unfold addTri
  generalize generateTrigrams text = l
  induction l generalizing idx with
  | nil => exact h
  | cons t ts ih => exact ih (keys_aupd_nodup h)

theorem keys_removeTri_nodup {row : ℕ} {text : Bytes} {idx : TriIdx}
    (h : (idx.map Prod.fst).Nodup) : ((removeTri row text idx).map Prod.fst).Nodup := by
  unfold removeTri
  generalize generateTrigrams text = l
  induction l generalizing idx with
  | nil => exact h
  | cons t ts ih =>
    apply ih
    show ((match alookup idx t with
           | some pst => aupd idx t (pst.erase row)
           | none => idx).map Prod.fst).Nodup
    cases alookup idx t with
    | some pst => exact keys_aupd_nodup h
    | none => exact h

theorem mem_interFold {r : ℕ} {idx : TriIdx} (ts : List Trigram) (a : Finset ℕ) :
    r ∈ ts.foldl (fun acc u => acc ∩ lookupTri idx u) a ↔
      r ∈ a ∧ ∀ t ∈ ts, r ∈ lookupTri idx t := by
  induction ts generalizing a with
  | nil => simp
  | cons t ts ih =>
    simp only [List.foldl_cons, ih, Finset.mem_inter, List.mem_cons]
    constructor
    · rintro ⟨⟨h1, h2⟩, h3⟩
      exact ⟨h1, fun u hu => hu.elim (fun he => he ▸ h2) (h3 u)⟩
    · rintro ⟨h1, h2⟩
      exact ⟨⟨h1, h2 t (Or.inl rfl)⟩, fun u hu => h2 u (Or.inr hu)⟩

theorem mem_searchIdx {idx : TriIdx} {q : Bytes} {r : ℕ} :
    r ∈ searchIdx idx q ↔
      generateTrigrams q ≠ [] ∧ ∀ t ∈ generateTrigrams q, r ∈ lookupTri idx t := by
  unfold searchIdx
  cases hq : generateTrigrams q with
  | nil => simp
  | cons t ts =>
    rw [mem_interFold]
    constructor
    · rintro ⟨h1, h2⟩
      refine ⟨List.cons_ne_nil t ts, fun u hu => ?_⟩
      rcases List.mem_cons.mp hu with he | hm
      · exact he ▸ h1
      · exact h2 u hm
    · rintro ⟨-, h⟩
      exact ⟨h t (List.mem_cons_self t ts), fun u hu => h u (List.mem_cons_of_mem t hu)⟩

theorem asciiLower_idem (b : Nat) : asciiLower (asciiLower b) = asciiLower b := by
  unfold asciiLower
  split_ifs with h1 h2 <;> omega

theorem lowerB_idem (s : Bytes) : lowerB (lowerB s) = lowerB s := by
  simp [lowerB, Function.comp, asciiLower_idem]

theorem lowerB_length (s : Bytes) : (lowerB s).length = s.length := List.length_map s asciiLower

theorem beginsWith_iff (n h : Bytes) : beginsWith n h = true ↔ ∃ post, h = n ++ post := by
  induction n generalizing h with
  | nil => simp [beginsWith]
  | cons a as ih =>
    cases h with
    | nil =>
      simp only [beginsWith, Bool.false_eq_true, false_iff]
      rintro ⟨post, hpost⟩
      exact List.noConfusion hpost
    | cons b hs =>
      simp only [beginsWith, Bool.and_eq_true, beq_iff_eq, ih]
      constructor
      · rintro ⟨rfl, post, rfl⟩
        exact ⟨post, rfl⟩
      · rintro ⟨post, heq⟩
        rw [List.cons_append] at heq
        injection heq with h1 h2
        exact ⟨h1.symm, post, h2⟩

theorem containsB_iff (h n : Bytes) : containsB h n = true ↔ ∃ pre post, h = pre ++ n ++ post := by
  induction h with
  | nil =>
    rw [show containsB [] n = (beginsWith n [] || false) from rfl]
    simp only [Bool.or_false]
    rw [beginsWith_iff]
    constructor
    · rintro ⟨post, hpost⟩
      exact ⟨[], post, by simpa using hpost⟩
    · rintro ⟨pre, post, heq⟩
      rcases List.append_eq_nil.mp heq.symm with ⟨h1, rfl⟩
      rcases List.append_eq_nil.mp h1 with ⟨rfl, rfl⟩
      exact ⟨[], rfl⟩
  | cons c t ih =>
    rw [show containsB (c :: t) n = (beginsWith n (c :: t) || containsB t n) from rfl]
    simp only [Bool.or_eq_true, beginsWith_iff, ih]
    constructor
    · rintro (⟨post, heq⟩ | ⟨pre, post, heq⟩)
      · exact ⟨[], post, by simpa using heq⟩
      · exact ⟨c :: pre, post, by simp [heq]⟩
    · rintro ⟨pre, post, heq⟩
      cases pre with
      | nil => exact Or.inl ⟨post, by simpa using heq⟩
      | cons p ps =>
        right
        rw [List.cons_append, List.cons_append] at heq
        injection heq with h1 h2
        exact ⟨ps, post, by simpa using h2⟩

theorem mem_triWindows (t : Trigram) (l : Bytes) :
    t ∈ triWindows l ↔ ∃ pre post, l = pre ++ [t.1, t.2.1, t.2.2] ++ post := by
  obtain ⟨t1, t2, t3⟩ := t
  induction l with
  | nil =>
    simp only [triWindows, List.not_mem_nil, false_iff]
    rintro ⟨pre, post, heq⟩
    apply_fun List.length at heq
    simp at heq
    omega
  | cons a l1 ih =>
    cases l1 with
    | nil =>
      simp only [triWindows, List.not_mem_nil, false_iff]
      rintro ⟨pre, post, heq⟩
      apply_fun List.length at heq
      simp at heq
      omega
    | cons b l2 =>
      cases l2 with
      | nil =>
        simp only [triWindows, List.not_mem_nil, false_iff]
        rintro ⟨pre, post, heq⟩
        apply_fun List.length at heq
        simp at heq
        omega
      | cons c rest =>
        rw [show triWindows (a :: b :: c :: rest) = (a, b, c) :: triWindows (b :: c :: rest)
              from rfl]
        simp only [List.mem_cons, ih]
        constructor
        · rintro (heq | ⟨pre, post, heq⟩)
          · injection heq with e1 e23
            injection e23 with e2 e3
            exact ⟨[], rest, by simp [e1, e2, e3]⟩
          · exact ⟨a :: pre, post, by simp [heq]⟩
        · rintro ⟨pre, post, heq⟩
          cases pre with
          | nil =>
            simp only [List.nil_append, List.cons_append] at heq
            injection heq with e1 hrest
            injection hrest with e2 hrest
            injection hrest with e3 hrest
            left
            simp [e1, e2, e3]
          | cons p ps =>
            right
            rw [List.cons_append, List.cons_append] at heq
            injection heq with e1 hrest
            exact ⟨ps, post, by simpa using hrest⟩

theorem triWindows_ne_nil {l : Bytes} (h : 3 ≤ l.length) : triWindows l ≠ [] := by
  match l with
  | [] => simp at h
  | [a] => simp at h
  | [a, b] => simp at h
  | a :: b :: c :: rest =>
    rw [show triWindows (a :: b :: c :: rest) = (a, b, c) :: triWindows (b :: c :: rest) from rfl]
    exact List.cons_ne_nil _ _

/-- The pruning completeness argument: if the (already lowercased) filter
occurs in the lowercased text, every filter trigram is a text trigram. -/
theorem trigrams_of_contains {text f : Bytes} (hc : containsB (lowerB text) f = true)
    (hf : lowerB f = f) : ∀ t ∈ generateTrigrams f, t ∈ generateTrigrams text := by
  intro t ht
  rw [generateTrigrams, hf] at ht
  rcases (containsB_iff _ _).mp hc with ⟨pre, post, heq⟩
  rcases (mem_triWindows t f).mp ht with ⟨p, q, hfeq⟩
  rw [generateTrigrams]
  apply (mem_triWindows t _).mpr
  refine ⟨pre ++ p, q ++ post, ?_⟩
  rw [heq, hfeq]
  simp [List.append_assoc]

theorem itFold_extend (g : ℕ → Option Bytes) (l : List ℕ) (acc : Bytes) :
    ∃ rest,
      l.foldl
          (fun text ci =>
            match g ci with
            | some str => (if text ≠ [] then text ++ [32] else text) ++ str
            | none => text) acc = acc ++ rest := by
  induction l generalizing acc with
  | nil => exact ⟨[], by simp⟩
  | cons ci l ih =>
    simp only [List.foldl_cons]
    cases hg : g ci with
    | none => simpa [hg] using ih acc
    | some str =>
      rcases ih ((if acc ≠ [] then acc ++ [32] else acc) ++ str) with ⟨rest, hrest⟩
      by_cases hacc : acc = []
      · subst hacc
        refine ⟨str ++ rest, ?_⟩
        simpa [hg] using hrest
      · refine ⟨[32] ++ str ++ rest, ?_⟩
        simp only [hg]
        rw [hrest]
        simp [hacc, List.append_assoc]

theorem itFold_has (g : ℕ → Option Bytes) (l : List ℕ) {ci : ℕ} (hci : ci ∈ l)
    {text : Bytes} (ht : g ci = some text) :
    ∀ acc, ∃ pre post,
      l.foldl
          (fun text ci =>
            match g ci with
            | some str => (if text ≠ [] then text ++ [32] else text) ++ str
            | none => text) acc = pre ++ text ++ post := by
  induction l with
  | nil => simp at hci
  | cons c0 l ih =>
    intro acc
    simp only [List.foldl_cons]
    by_cases hc0 : ci = c0
    · subst hc0
      rcases itFold_extend g l ((if acc ≠ [] then acc ++ [32] else acc) ++ text) with ⟨rest, hrest⟩
      refine ⟨if acc ≠ [] then acc ++ [32] else acc, rest, ?_⟩
      simp only [ht]
      rw [hrest]
    · rcases List.mem_cons.mp hci with he | hm
      · exact absurd he hc0
      · exact ih hm _

/-- A row whose indexed column `ci` holds `text` has `text` as a
contiguous segment of its indexed text. -/
theorem indexedText_has_col (s : GridStore) (r : ℕ) {ci : ℕ} (hci : ci ∈ s.indexedColumns)
    {text : Bytes} (ht : colText s r ci = some text) :
    ∃ pre post, indexedText s r = pre ++ text ++ post :=
  itFold_has (colText s r) s.indexedColumns hci ht []

theorem insSorted_perm (le : Nat → Nat → Bool) (x : Nat) (l : List Nat) :
    (insSorted le x l).Perm (x :: l) := by
  induction l with
  | nil => exact List.Perm.refl _
  | cons y ys ih =>
    unfold insSorted
    by_cases h : le y x = true
    · simp only [h, if_pos]
      exact (List.Perm.cons y ih).trans (List.Perm.swap x y ys)
    · simp only [h, if_neg, Bool.not_eq_true]
      exact List.Perm.refl _

theorem stableSortFold_perm (le : Nat → Nat → Bool) (l acc : List Nat) :
    (l.foldl (fun acc x => insSorted le x acc) acc).Perm (l ++ acc) := by
  induction l generalizing acc with
  | nil => exact List.Perm.refl _
  | cons x l ih =>
    simp only [List.foldl_cons, List.cons_append]
    exact ((ih (insSorted le x acc)).trans
      (List.Perm.append_left l (insSorted_perm le x acc))).trans List.perm_middle

theorem stableSortBy_perm (cmp : Nat → Nat → Ordering) (l : List Nat) :
    (stableSortBy cmp l).Perm l := by
  have h := stableSortFold_perm (fun a b => !(cmp a b == Ordering.gt)) l []
  rwa [List.append_nil] at h

/-- Book-keeping invariants: tombstone vector and all columns have length
`rowCount`; `id_to_row` values are in range. -/
def lengthsOk (s : GridStore) : Prop :=
  s.deleted.length = s.rowCount ∧ ∀ c ∈ s.columns, dataLen c.data = s.rowCount

def idsOk (s : GridStore) : Prop := ∀ p ∈ s.idToRow, p.2 < s.rowCount

def keysNodupTri (s : GridStore) : Prop := (s.trigram.map Prod.fst).Nodup

/-- Invariant I1: every live row is present in the posting list of each
trigram of its current indexed text. -/
def triComplete (s : GridStore) : Prop :=
  ∀ r < s.rowCount, liveAt s r = true →
    ∀ t ∈ generateTrigrams (indexedText s r), r ∈ lookupTri s.trigram t

/-- Invariant I2 (and more): every posting-list member is a live,
in-range row whose current indexed text generates the key trigram. -/
def triSound (s : GridStore) : Prop :=
  ∀ e ∈ s.trigram, ∀ r ∈ e.2,
    r < s.rowCount ∧ liveAt s r = true ∧ e.1 ∈ generateTrigrams (indexedText s r)

/-- The part of the index invariant that survives arbitrary operation
sequences (including updates of tombstoned rows). -/
def StoreInvLive (s : GridStore) : Prop :=
  lengthsOk s ∧ idsOk s ∧ keysNodupTri s ∧ triComplete s

/-- The full index invariant. -/
def StoreInv (s : GridStore) : Prop := StoreInvLive s ∧ triSound s

theorem triSound_lookup {s : GridStore} (hS : triSound s) {t : Trigram} {r : ℕ}
    (hr : r ∈ lookupTri s.trigram t) :
    r < s.rowCount ∧ liveAt s r = true ∧ t ∈ generateTrigrams (indexedText s r) := by
  unfold lookupTri at hr
  cases h : alookup s.trigram t with
  | none => simp [h] at hr
  | some pst =>
    rw [h] at hr
    exact hS (t, pst) (alookup_mem h) r hr

theorem triSound_of_pointwise {s : GridStore} (hN : keysNodupTri s)
    (h : ∀ t r, r ∈ lookupTri s.trigram t →
      r < s.rowCount ∧ liveAt s r = true ∧ t ∈ generateTrigrams (indexedText s r)) :
    triSound s := by
  intro e he r hr
  have hl : alookup s.trigram e.1 = some e.2 := by
    obtain ⟨t, pst⟩ := e
    exact alookup_of_mem_nodup hN he
  exact h e.1 r (by simp [lookupTri, hl, hr])

theorem itFold_congr (g g' : ℕ → Option Bytes) (l : List ℕ)
    (h : ∀ ci ∈ l, g' ci = g ci) (acc : Bytes) :
    l.foldl
        (fun text ci =>
          match g' ci with
          | some str => (if text ≠ [] then text ++ [32] else text) ++ str
          | none => text) acc =
      l.foldl
        (fun text ci =>
          match g ci with
          | some str => (if text ≠ [] then text ++ [32] else text) ++ str
          | none => text) acc := by
  induction l generalizing acc with
  | nil => rfl
  | cons ci l ih =>
    simp only [List.foldl_cons, h ci (List.mem_cons_self ci l)]
    exact ih (fun c hc => h c (List.mem_cons_of_mem ci hc)) _

theorem indexedText_congr {s s' : GridStore} (r : ℕ)
    (hic : s'.indexedColumns = s.indexedColumns)
    (hcol : ∀ ci ∈ s.indexedColumns, colText s' r ci = colText s r ci) :
    indexedText s' r = indexedText s r := by
  unfold indexedText
  rw [hic]
  exact itFold_congr (colText s r) (colText s' r) s.indexedColumns hcol []

theorem dataLen_pushVal (d : ColData) (v : JVal) : dataLen (pushVal d v) = dataLen d + 1 := by
  cases d <;> simp [pushVal, dataLen]

theorem colGetString_pushVal_lt {d : ColData} {r : ℕ} (h : r < dataLen d) (v : JVal) :
    colGetString (pushVal d v) r = colGetString d r := by
  cases d with
  | strs w => simpa [pushVal, colGetString] using List.get?_append h
  | nums w => simp [pushVal, colGetString]

theorem dataLen_setCellData (d : ColData) (i : ℕ) (v : JVal) :
    dataLen (setCellData d i v) = dataLen d := by
  cases d with
  | strs w => by_cases hi : i < w.length <;> simp [setCellData, hi, dataLen]
  | nums w => by_cases hi : i < w.length <;> simp [setCellData, hi, dataLen]

theorem colGetString_setCellData_ne {d : ColData} {i r : ℕ} (h : r ≠ i) (v : JVal) :
    colGetString (setCellData d i v) r = colGetString d r := by
  cases d with
  | strs w =>
    by_cases hi : i < w.length
    · simp [setCellData, hi, colGetString, List.getElem?_set_ne (fun he => h he.symm)]
    · simp [setCellData, hi, colGetString]
  | nums w =>
    by_cases hi : i < w.length <;> simp [setCellData, hi, colGetString]

theorem toJsValue_setCellData_ne {d : ColData} {i r : ℕ} (h : r ≠ i) (v : JVal) :
    toJsValue (setCellData d i v) r = toJsValue d r := by
  cases d with
  | strs w =>
    by_cases hi : i < w.length
    · simp [setCellData, hi, toJsValue, List.getElem?_set_ne (fun he => h he.symm)]
    · simp [setCellData, hi, toJsValue]
  | nums w =>
    by_cases hi : i < w.length
    · simp [setCellData, hi, toJsValue, List.getElem?_set_ne (fun he => h he.symm)]
    · simp [setCellData, hi, toJsValue]

theorem setCellValue_fields (s : GridStore) (r ci : ℕ) (v : JVal) :
    (setCellValue s r ci v).colIndex = s.colIndex ∧
      (setCellValue s r ci v).rowCount = s.rowCount ∧
      (setCellValue s r ci v).idColumn = s.idColumn ∧
      (setCellValue s r ci v).idToRow = s.idToRow ∧
      (setCellValue s r ci v).deleted = s.deleted ∧
      (setCellValue s r ci v).trigram = s.trigram ∧
      (setCellValue s r ci v).indexedColumns = s.indexedColumns ∧
      (setCellValue s r ci v).view = s.view := by
  unfold setCellValue
  cases s.columns.get? ci <;> simp

theorem colText_setCellValue_ne {s : GridStore} {r ci : ℕ} {v : JVal} {r' : ℕ} (h : r' ≠ r)
    (ci' : ℕ) : colText (setCellValue s r ci v) r' ci' = colText s r' ci' := by
  unfold setCellValue colText
  cases hg : s.columns.get? ci with
  | none => rfl
  | some c =>
    by_cases hci : ci' = ci
    · subst hci
      simp only [List.get?_set_eq, hg, Option.map_eq_map, Option.map_some', Option.bind_eq_bind,
        Option.some_bind]
      exact colGetString_setCellData_ne h v
    · simp only [List.get?_set_ne _ _ (fun he => hci he.symm)]

theorem colsLen_setCellValue {s : GridStore} {n : ℕ}
    (hall : ∀ c ∈ s.columns, dataLen c.data = n) (r ci : ℕ) (v : JVal) :
    ∀ c ∈ (setCellValue s r ci v).columns, dataLen c.data = n := by
  unfold setCellValue
  cases hg : s.columns.get? ci with
  | none => exact hall
  | some c =>
    intro c' hc'
    rcases List.mem_or_eq_of_mem_set hc' with hm | he
    · exact hall c' hm
    · rw [he]
      have hcm : c ∈ s.columns := List.get?_mem hg
      simpa [dataLen_setCellData] using hall c hcm

/-- All fields except `columns` agree (the cell-writing loop touches only
column data). -/
def SameSkeleton (s s' : GridStore) : Prop :=
  s'.colIndex = s.colIndex ∧ s'.rowCount = s.rowCount ∧ s'.idColumn = s.idColumn ∧
    s'.idToRow = s.idToRow ∧ s'.deleted = s.deleted ∧ s'.trigram = s.trigram ∧
    s'.indexedColumns = s.indexedColumns ∧ s'.view = s.view

theorem sameSkeleton_refl (s : GridStore) : SameSkeleton s s :=
  ⟨rfl, rfl, rfl, rfl, rfl, rfl, rfl, rfl⟩

theorem sameSkeleton_trans {s1 s2 s3 : GridStore} (h1 : SameSkeleton s1 s2)
    (h2 : SameSkeleton s2 s3) : SameSkeleton s1 s3 := by
  obtain ⟨a1, b1, c1, d1, e1, f1, g1, i1⟩ := h1
  obtain ⟨a2, b2, c2, d2, e2, f2, g2, i2⟩ := h2
  exact ⟨a2.trans a1, b2.trans b1, c2.trans c1, d2.trans d1, e2.trans e1, f2.trans f1,
    g2.trans g1, i2.trans i1⟩

theorem sameSkeleton_setCellValue (s : GridStore) (r ci : ℕ) (v : JVal) :
    SameSkeleton s (setCellValue s r ci v) :=
  setCellValue_fields s r ci v

theorem sameSkeleton_cellStep (s : GridStore) (rowIdx : ℕ) (changes : JObj) (skipId : Bool)
    (kv : Bytes × JVal) :
    SameSkeleton s
      (if skipId ∧ kv.1 = bs "id" then s
       else
         match alookup s.colIndex kv.1 with
         | some ci => setCellValue s rowIdx ci (jget changes kv.1)
         | none => s) := by
  by_cases hskip : skipId ∧ kv.1 = bs "id"
  · rw [if_pos hskip]
    exact sameSkeleton_refl s
  · rw [if_neg hskip]
    cases alookup s.colIndex kv.1 with
    | none => exact sameSkeleton_refl s
    | some ci => exact sameSkeleton_setCellValue s rowIdx ci _

theorem sameSkeleton_cellFold (rowIdx : ℕ) (changes : JObj) (skipId : Bool)
    (l : List (Bytes × JVal)) (s : GridStore) :
    SameSkeleton s
      (l.foldl
        (fun acc kv =>
          if skipId ∧ kv.1 = bs "id" then acc
          else
            match alookup acc.colIndex kv.1 with
            | some ci => setCellValue acc rowIdx ci (jget changes kv.1)
            | none => acc) s) := by
  induction l generalizing s with
  | nil => exact sameSkeleton_refl s
  | cons kv l ih =>
    simp only [List.foldl_cons]
    exact sameSkeleton_trans (sameSkeleton_cellStep s rowIdx changes skipId kv) (ih _)

theorem sameSkeleton_applyCellChanges (s : GridStore) (rowIdx : ℕ) (changes : JObj)
    (skipId : Bool) : SameSkeleton s (applyCellChanges s rowIdx changes skipId) :=
  sameSkeleton_cellFold rowIdx changes skipId changes s

theorem colText_cellFold_ne (rowIdx : ℕ) (changes : JObj) (skipId : Bool)
    (l : List (Bytes × JVal)) (s : GridStore) {r' : ℕ} (h : r' ≠ rowIdx) (ci : ℕ) :
    colText
        (l.foldl
          (fun acc kv =>
            if skipId ∧ kv.1 = bs "id" then acc
            else
              match alookup acc.colIndex kv.1 with
              | some ci => setCellValue acc rowIdx ci (jget changes kv.1)
              | none => acc) s) r' ci = colText s r' ci := by
  induction l generalizing s with
  | nil => rfl
  | cons kv l ih =>
    simp only [List.foldl_cons]
    rw [ih]
    by_cases hskip : skipId ∧ kv.1 = bs "id"
    · rw [if_pos hskip]
    · rw [if_neg hskip]
      cases alookup s.colIndex kv.1 with
      | none => rfl
      | some ci0 => exact colText_setCellValue_ne h ci

theorem colsLen_cellFold (rowIdx : ℕ) (changes : JObj) (skipId : Bool)
    (l : List (Bytes × JVal)) (s : GridStore) {n : ℕ}
    (hall : ∀ c ∈ s.columns, dataLen c.data = n) :
    ∀ c ∈ (l.foldl
        (fun acc kv =>
          if skipId ∧ kv.1 = bs "id" then acc
          else
            match alookup acc.colIndex kv.1 with
            | some ci => setCellValue acc rowIdx ci (jget changes kv.1)
            | none => acc) s).columns, dataLen c.data = n := by
  induction l generalizing s with
  | nil => exact hall
  | cons kv l ih =>
    simp only [List.foldl_cons]
    apply ih
    by_cases hskip : skipId ∧ kv.1 = bs "id"
    · rw [if_pos hskip]
      exact hall
    · rw [if_neg hskip]
      cases alookup s.colIndex kv.1 with
      | none => exact hall
      | some ci0 => exact colsLen_setCellValue hall rowIdx ci0 _

theorem indexedText_applyCellChanges_ne (s : GridStore) (rowIdx : ℕ) (changes : JObj)
    (skipId : Bool) {r' : ℕ} (h : r' ≠ rowIdx) :
    indexedText (applyCellChanges s rowIdx changes skipId) r' = indexedText s r' := by
  apply indexedText_congr
  · exact (sameSkeleton_applyCellChanges s rowIdx changes skipId).2.2.2.2.2.2.1
  · intro ci _
    exact colText_cellFold_ne rowIdx changes skipId changes s h ci

theorem indexedText_setTri (s : GridStore) (tri : TriIdx) (r : ℕ) :
    indexedText { s with trigram := tri } r = indexedText s r := rfl

theorem liveAt_congr {s s' : GridStore} (h : s'.deleted = s.deleted) (r : ℕ) :
    liveAt s' r = liveAt s r := by
  unfold liveAt
  rw [h]

theorem updateRowCore_invLive {s : GridStore} {rowIdx : ℕ} (changes : JObj) (skip : Bool)
    (hL : StoreInvLive s) (hr : rowIdx < s.rowCount) :
    StoreInvLive (updateRowCore s rowIdx changes skip) := by
  obtain ⟨⟨hdel, hcols⟩, hids, hN, hC⟩ := hL
  have hsk := sameSkeleton_applyCellChanges s rowIdx changes skip
  have htri : (applyCellChanges s rowIdx changes skip).trigram = s.trigram := hsk.2.2.2.2.2.1
  have hdel1 : (applyCellChanges s rowIdx changes skip).deleted = s.deleted := hsk.2.2.2.2.1
  have hrc : (applyCellChanges s rowIdx changes skip).rowCount = s.rowCount := hsk.2.1
  have hidr : (applyCellChanges s rowIdx changes skip).idToRow = s.idToRow := hsk.2.2.2.1
  refine ⟨⟨?_, ?_⟩, ?_, ?_, ?_⟩
  · show (applyCellChanges s rowIdx changes skip).deleted.length =
      (applyCellChanges s rowIdx changes skip).rowCount
    rw [hdel1, hrc, hdel]
  · show ∀ c ∈ (applyCellChanges s rowIdx changes skip).columns,
      dataLen c.data = (applyCellChanges s rowIdx changes skip).rowCount
    rw [hrc]
    exact colsLen_cellFold rowIdx changes skip changes s hcols
  · show ∀ p ∈ (applyCellChanges s rowIdx changes skip).idToRow,
      p.2 < (applyCellChanges s rowIdx changes skip).rowCount
    rw [hidr, hrc]
    exact hids
  · show ((if indexedText s rowIdx ≠ indexedText (applyCellChanges s rowIdx changes skip) rowIdx
        then addTri rowIdx (indexedText (applyCellChanges s rowIdx changes skip) rowIdx)
          (removeTri rowIdx (indexedText s rowIdx)
            (applyCellChanges s rowIdx changes skip).trigram)
        else (applyCellChanges s rowIdx changes skip).trigram).map Prod.fst).Nodup
    rw [htri]
    by_cases htext : indexedText s rowIdx ≠ indexedText (applyCellChanges s rowIdx changes skip) rowIdx
    · rw [if_pos htext]
      exact keys_addTri_nodup (keys_removeTri_nodup hN)
    · rw [if_neg htext]
      exact hN
  · intro r hr2 hlive2 t ht
    rw [show (updateRowCore s rowIdx changes skip).rowCount =
      (applyCellChanges s rowIdx changes skip).rowCount from rfl, hrc] at hr2
    rw [show indexedText (updateRowCore s rowIdx changes skip) r =
      indexedText (applyCellChanges s rowIdx changes skip) r from rfl] at ht
    have hlive : liveAt s r = true := by
      rw [← hlive2]
      exact (liveAt_congr (show (updateRowCore s rowIdx changes skip).deleted = s.deleted
        from by rw [show (updateRowCore s rowIdx changes skip).deleted =
          (applyCellChanges s rowIdx changes skip).deleted from rfl, hdel1]) r).symm
    show r ∈ lookupTri
      (if indexedText s rowIdx ≠ indexedText (applyCellChanges s rowIdx changes skip) rowIdx
       then addTri rowIdx (indexedText (applyCellChanges s rowIdx changes skip) rowIdx)
         (removeTri rowIdx (indexedText s rowIdx)
           (applyCellChanges s rowIdx changes skip).trigram)
       else (applyCellChanges s rowIdx changes skip).trigram) t
    by_cases hre : r = rowIdx
    · subst hre
      by_cases htext : indexedText s r ≠ indexedText (applyCellChanges s r changes skip) r
      · rw [if_pos htext, lookupTri_addTri]
        rw [if_pos ht]
        exact Finset.mem_insert_self r _
      · rw [if_neg htext, htri]
        push_neg at htext
        exact hC r hr2 hlive t (by rw [htext]; exact ht)
    · have htext_r : indexedText (applyCellChanges s rowIdx changes skip) r = indexedText s r :=
        indexedText_applyCellChanges_ne s rowIdx changes skip hre
      rw [htext_r] at ht
      have hmem := hC r hr2 hlive t ht
      by_cases htext : indexedText s rowIdx ≠ indexedText (applyCellChanges s rowIdx changes skip) rowIdx
      · rw [if_pos htext, lookupTri_addTri, lookupTri_removeTri, htri]
        by_cases h1 : t ∈ generateTrigrams (indexedText (applyCellChanges s rowIdx changes skip) rowIdx) <;>
          by_cases h2 : t ∈ generateTrigrams (indexedText s rowIdx) <;>
            simp [h1, h2, Finset.mem_insert, Finset.mem_erase, hre, hmem]
      · rw [if_neg htext, htri]
        exact hmem

theorem updateRowCore_inv {s : GridStore} {rowIdx : ℕ} (changes : JObj) (skip : Bool)
    (hI : StoreInv s) (hr : rowIdx < s.rowCount) (hlive : liveAt s rowIdx = true) :
    StoreInv (updateRowCore s rowIdx changes skip) := by
  have hL := updateRowCore_invLive changes skip hI.1 hr
  refine ⟨hL, ?_⟩
  obtain ⟨⟨⟨hdel, hcols⟩, hids, hN, hC⟩, hS⟩ := hI
  have hsk := sameSkeleton_applyCellChanges s rowIdx changes skip
  have htri : (applyCellChanges s rowIdx changes skip).trigram = s.trigram := hsk.2.2.2.2.2.1
  have hdel1 : (applyCellChanges s rowIdx changes skip).deleted = s.deleted := hsk.2.2.2.2.1
  have hrc : (applyCellChanges s rowIdx changes skip).rowCount = s.rowCount := hsk.2.1
  apply triSound_of_pointwise hL.2.2.1
  intro t r hmem
  rw [show (updateRowCore s rowIdx changes skip).rowCount =
    (applyCellChanges s rowIdx changes skip).rowCount from rfl, hrc]
  rw [show indexedText (updateRowCore s rowIdx changes skip) r =
    indexedText (applyCellChanges s rowIdx changes skip) r from rfl]
  rw [show liveAt (updateRowCore s rowIdx changes skip) r =
    liveAt s r from liveAt_congr (by
      rw [show (updateRowCore s rowIdx changes skip).deleted =
        (applyCellChanges s rowIdx changes skip).deleted from rfl, hdel1]) r]
  rw [show (updateRowCore s rowIdx changes skip).trigram =
    (if indexedText s rowIdx ≠ indexedText (applyCellChanges s rowIdx changes skip) rowIdx
     then addTri rowIdx (indexedText (applyCellChanges s rowIdx changes skip) rowIdx)
       (removeTri rowIdx (indexedText s rowIdx)
         (applyCellChanges s rowIdx changes skip).trigram)
     else (applyCellChanges s rowIdx changes skip).trigram) from rfl] at hmem
  by_cases htext : indexedText s rowIdx ≠ indexedText (applyCellChanges s rowIdx changes skip) rowIdx
  · rw [if_pos htext, lookupTri_addTri, lookupTri_removeTri, htri] at hmem
    by_cases hre : r = rowIdx
    · subst hre
      refine ⟨hr, hlive, ?_⟩
      by_cases h1 : t ∈ generateTrigrams (indexedText (applyCellChanges s r changes skip) r)
      · exact h1
      · exfalso
        rw [if_neg h1] at hmem
        by_cases h2 : t ∈ generateTrigrams (indexedText s r)
        · rw [if_pos h2] at hmem
          exact (Finset.mem_erase.mp hmem).1 rfl
        · rw [if_neg h2] at hmem
          have := (triSound_lookup hS hmem).2.2
          exact h2 this
    · have hsm : r ∈ lookupTri s.trigram t := by
        by_cases h1 : t ∈ generateTrigrams (indexedText (applyCellChanges s rowIdx changes skip) rowIdx) <;>
          by_cases h2 : t ∈ generateTrigrams (indexedText s rowIdx) <;>
            simp only [h1, h2, if_pos, if_neg, not_false_iff, Finset.mem_insert,
              Finset.mem_erase] at hmem <;>
          first
            | exact hmem
            | exact hmem.2
            | rcases hmem with he | hm
              · exact absurd he hre
              · first
                | exact hm
                | exact hm.2
      have hprops := triSound_lookup hS hsm
      exact ⟨hprops.1, hprops.2.1,
        by rw [indexedText_applyCellChanges_ne s rowIdx changes skip hre]; exact hprops.2.2⟩
  · rw [if_neg htext, htri] at hmem
    push_neg at htext
    have hprops := triSound_lookup hS hmem
    by_cases hre : r = rowIdx
    · subst hre
      exact ⟨hprops.1, hprops.2.1, by rw [← htext]; exact hprops.2.2⟩
    · exact ⟨hprops.1, hprops.2.1,
        by rw [indexedText_applyCellChanges_ne s rowIdx changes skip hre]; exact hprops.2.2⟩

theorem getD_append_lt {l l' : List Bool} {r : ℕ} (h : r < l.length) (d : Bool) :
    (l ++ l').getD r d = l.getD r d := by
  unfold List.getD
  rw [List.get?_append h]

theorem insertRowInternal_inv {s : GridStore} {row : JObj} {s' : GridStore} {ridx : ℕ}
    (hI : StoreInv s) (h : insertRowInternal s row = .ok (s', ridx)) : StoreInv s' := by
  obtain ⟨⟨hdel, hcols⟩, hids, hN, hC⟩ := hI.1
  have hS := hI.2
  unfold insertRowInternal at h
  split at h
  · exact absurd h (by simp)
  split at h
  · exact absurd h (by simp)
  split at h
  · exact absurd h (by simp)
  rename_i idColName hcol id hid hdup
  simp only [Except.ok.injEq, Prod.mk.injEq] at h
  obtain ⟨hs', hridx⟩ := h
  subst hs'
  -- the intermediate store (before the trigram add)
  set sMid : GridStore :=
    { s with
      columns := s.columns.map fun c => { c with data := pushVal c.data (jget row c.name) }
      idToRow := aupd s.idToRow id s.rowCount
      deleted := s.deleted ++ [false]
      rowCount := s.rowCount + 1 } with hsMid
  have hcolframe : ∀ r < s.rowCount, ∀ ci, colText sMid r ci = colText s r ci := by
    intro r hr ci
    unfold colText
    show ((s.columns.map fun c =>
      { c with data := pushVal c.data (jget row c.name) }).get? ci).bind _ = _
    rw [List.get?_map]
    cases hg : s.columns.get? ci with
    | none => rfl
    | some c =>
      simp only [Option.map_some', Option.bind_eq_bind, Option.some_bind]
      exact colGetString_pushVal_lt (by rw [hcols c (List.get?_mem hg)]; exact hr) _
  have htext : ∀ r < s.rowCount, indexedText sMid r = indexedText s r := by
    intro r hr
    exact indexedText_congr r rfl fun ci _ => hcolframe r hr ci
  have hlive : ∀ r < s.rowCount, liveAt sMid r = liveAt s r := by
    intro r hr
    show (!((s.deleted ++ [false]).getD r false)) = (!(s.deleted.getD r false))
    rw [getD_append_lt (hdel ▸ hr)]
  have hliveNew : liveAt sMid s.rowCount = true := by
    show (!((s.deleted ++ [false]).getD s.rowCount false)) = true
    unfold List.getD
    rw [← hdel, List.get?_concat_length]
    rfl
  constructor
  · refine ⟨⟨?_, ?_⟩, ?_, ?_, ?_⟩
    · show (s.deleted ++ [false]).length = s.rowCount + 1
      simp [hdel]
    · intro c hc
      rcases List.mem_map.mp hc with ⟨c0, hc0, hceq⟩
      rw [← hceq]
      show dataLen (pushVal c0.data (jget row c0.name)) = s.rowCount + 1
      rw [dataLen_pushVal, hcols c0 hc0]
    · intro p hp
      rcases mem_aupd hp with hm | he
      · exact Nat.lt_succ_of_lt (hids p hm)
      · rw [he]
        exact Nat.lt_succ_self _
    · exact keys_addTri_nodup hN
    · intro r hr2 hlive2 t ht
      show r ∈ lookupTri (addTri s.rowCount (indexedText sMid s.rowCount) s.trigram) t
      rw [lookupTri_addTri]
      rcases Nat.lt_succ_iff_lt_or_eq.mp hr2 with hrlt | hre
      · have hlv : liveAt s r = true := by rw [← hlive r hrlt]; exact hlive2
        have htx : t ∈ generateTrigrams (indexedText s r) := by
          rw [← htext r hrlt]
          exact ht
        have hmem := hC r hrlt hlv t htx
        by_cases hin : t ∈ generateTrigrams (indexedText sMid s.rowCount)
        · rw [if_pos hin]
          exact Finset.mem_insert_of_mem hmem
        · rw [if_neg hin]
          exact hmem
      · subst hre
        rw [if_pos (show t ∈ generateTrigrams (indexedText sMid s.rowCount) from ht)]
        exact Finset.mem_insert_self _ _
  · refine triSound_of_pointwise ?_ ?_
    · exact keys_addTri_nodup hN
    intro t r hmem
    replace hmem : r ∈ lookupTri (addTri s.rowCount (indexedText sMid s.rowCount) s.trigram) t :=
      hmem
    rw [lookupTri_addTri] at hmem
    by_cases hin : t ∈ generateTrigrams (indexedText sMid s.rowCount)
    · rw [if_pos hin] at hmem
      rcases Finset.mem_insert.mp hmem with he | hm
      · subst he
        exact ⟨Nat.lt_succ_self _, hliveNew, hin⟩
      · have hprops := triSound_lookup hS hm
        exact ⟨Nat.lt_succ_of_lt hprops.1, (hlive r hprops.1).trans hprops.2.1,
          ((htext r hprops.1).symm ▸ hprops.2.2 :
            t ∈ generateTrigrams (indexedText sMid r))⟩
    · rw [if_neg hin] at hmem
      have hprops := triSound_lookup hS hmem
      exact ⟨Nat.lt_succ_of_lt hprops.1, (hlive r hprops.1).trans hprops.2.1,
        ((htext r hprops.1).symm ▸ hprops.2.2 :
          t ∈ generateTrigrams (indexedText sMid r))⟩

theorem getD_set_ne {l : List Bool} {i r : ℕ} (h : r ≠ i) (a d : Bool) :
    (l.set i a).getD r d = l.getD r d := by
  unfold List.getD
  rw [List.get?_set_ne _ _ (Ne.symm h)]

theorem getD_set_lt {l : List Bool} {i : ℕ} (h : i < l.length) (a d : Bool) :
    (l.set i a).getD i d = a := by
  unfold List.getD
  rw [List.get?_set_eq]
  cases hg : l.get? i with
  | none => exact absurd (List.get?_eq_none.mp hg) (Nat.not_le.mpr h)
  | some b => rfl

theorem deleteS_inv {s : GridStore} (id : Bytes) (hI : StoreInv s) :
    StoreInv (deleteS s id).1 := by
  unfold deleteS
  cases hlook : alookup s.idToRow id with
  | none => exact hI
  | some ridx =>
    obtain ⟨⟨⟨hdel, hcols⟩, hids, hN, hC⟩, hS⟩ := hI
    have hrlt : ridx < s.rowCount := hids _ (alookup_mem hlook)
    have hlive' : ∀ r, r ≠ ridx →
        ((s.deleted.set ridx true).getD r false) = s.deleted.getD r false :=
      fun r hr => getD_set_ne hr true false
    refine ⟨⟨⟨?_, ?_⟩, ?_, ?_, ?_⟩, ?_⟩
    · show (s.deleted.set ridx true).length = s.rowCount
      rw [List.length_set, hdel]
    · exact hcols
    · exact hids
    · exact keys_removeTri_nodup hN
    · intro r hr2 hlive2 t ht
      replace hr2 : r < s.rowCount := hr2
      have hrne : r ≠ ridx := by
        intro he
        subst he
        replace hlive2 : (!((s.deleted.set r true).getD r false)) = true := hlive2
        rw [getD_set_lt (hdel ▸ hrlt)] at hlive2
        exact Bool.noConfusion hlive2
      replace hlive2 : (!((s.deleted.set ridx true).getD r false)) = true := hlive2
      rw [hlive' r hrne] at hlive2
      replace ht : t ∈ generateTrigrams (indexedText s r) := ht
      have hmem := hC r hr2 hlive2 t ht
      show r ∈ lookupTri (removeTri ridx (indexedText s ridx) s.trigram) t
      rw [lookupTri_removeTri]
      by_cases hin : t ∈ generateTrigrams (indexedText s ridx)
      · rw [if_pos hin]
        exact Finset.mem_erase.mpr ⟨hrne, hmem⟩
      · rw [if_neg hin]
        exact hmem
    · refine triSound_of_pointwise ?_ ?_
      · exact keys_removeTri_nodup hN
      intro t r hmem
      replace hmem : r ∈ lookupTri (removeTri ridx (indexedText s ridx) s.trigram) t := hmem
      rw [lookupTri_removeTri] at hmem
      by_cases hin : t ∈ generateTrigrams (indexedText s ridx)
      · rw [if_pos hin] at hmem
        obtain ⟨hrne, hm⟩ := Finset.mem_erase.mp hmem
        have hprops := triSound_lookup hS hm
        refine ⟨hprops.1, ?_, hprops.2.2⟩
        show (!((s.deleted.set ridx true).getD r false)) = true
        rw [hlive' r hrne]
        exact hprops.2.1
      · rw [if_neg hin] at hmem
        have hprops := triSound_lookup hS hmem
        have hrne : r ≠ ridx := fun he => hin (he ▸ hprops.2.2)
        refine ⟨hprops.1, ?_, hprops.2.2⟩
        show (!((s.deleted.set ridx true).getD r false)) = true
        rw [hlive' r hrne]
        exact hprops.2.1

theorem storeInvLive_setView {s : GridStore} (v : ViewState) (h : StoreInvLive s) :
    StoreInvLive { s with view := v } := by
  obtain ⟨⟨a, b⟩, c, d, e⟩ := h
  exact ⟨⟨a, b⟩, c, d, e⟩

theorem storeInv_setView {s : GridStore} (v : ViewState) (h : StoreInv s) :
    StoreInv { s with view := v } := by
  obtain ⟨⟨⟨a, b⟩, c, d⟩, e⟩ := h
  exact ⟨⟨⟨a, b⟩, c, d⟩, e⟩

theorem insertS_inv {s : GridStore} (row : JObj) (hI : StoreInv s) :
    StoreInv (insertS s row).1 := by
  unfold insertS
  cases h : insertRowInternal s row with
  | error e => exact hI
  | ok p =>
    obtain ⟨s', ridx⟩ := p
    exact storeInv_setView _ (insertRowInternal_inv hI h)

/-- Does an id resolve to a live (or no) row?  Goodness of one update. -/
def goodId (s : GridStore) (id : Bytes) : Bool :=
  match alookup s.idToRow id with
  | some r => liveAt s r
  | none => true

def goodUpd (s : GridStore) (u : JObj) : Bool :=
  match asString (jget u (bs "id")) with
  | some id => goodId s id
  | none => true

/-- An operation never touching a tombstoned row. -/
def goodStepB (s : GridStore) : Op → Bool
  | .upd id _ => goodId s id
  | .bupd us => us.all (goodUpd s)
  | _ => true

def goodTraceB (s : GridStore) : List Op → Bool
  | [] => true
  | op :: ops => goodStepB s op && goodTraceB (runOp s op) ops

theorem updateS_invLive {s : GridStore} (id : Bytes) (changes : JObj)
    (hL : StoreInvLive s) : StoreInvLive (updateS s id changes).1 := by
  unfold updateS
  cases hlook : alookup s.idToRow id with
  | none => exact hL
  | some ridx =>
    exact storeInvLive_setView _
      (updateRowCore_invLive changes false hL (hL.2.1 _ (alookup_mem hlook)))

theorem updateS_inv {s : GridStore} (id : Bytes) (changes : JObj) (hI : StoreInv s)
    (hg : goodStepB s (.upd id changes) = true) : StoreInv (updateS s id changes).1 := by
  unfold updateS
  cases hlook : alookup s.idToRow id with
  | none => exact hI
  | some ridx =>
    have hlive : liveAt s ridx = true := by
      replace hg : goodId s id = true := hg
      unfold goodId at hg
      rw [hlook] at hg
      exact hg
    exact storeInv_setView _
      (updateRowCore_inv changes false hI (hI.1.2.1 _ (alookup_mem hlook)) hlive)

theorem updateRowCore_idToRow (s : GridStore) (rowIdx : ℕ) (changes : JObj) (skip : Bool) :
    (updateRowCore s rowIdx changes skip).idToRow = s.idToRow :=
  (sameSkeleton_applyCellChanges s rowIdx changes skip).2.2.2.1

theorem updateRowCore_deleted (s : GridStore) (rowIdx : ℕ) (changes : JObj) (skip : Bool) :
    (updateRowCore s rowIdx changes skip).deleted = s.deleted :=
  (sameSkeleton_applyCellChanges s rowIdx changes skip).2.2.2.2.1

theorem batchFold_invLive (l : List JObj) (acc : GridStore × ℕ) (h : StoreInvLive acc.1) :
    StoreInvLive
      (l.foldl
        (fun (acc : GridStore × ℕ) u =>
          match asString (jget u (bs "id")) with
          | none => acc
          | some id =>
            match alookup acc.1.idToRow id with
            | none => acc
            | some rowIdx => (updateRowCore acc.1 rowIdx u true, acc.2 + 1)) acc).1 := by
  induction l generalizing acc with
  | nil => exact h
  | cons u l ih =>
    simp only [List.foldl_cons]
    apply ih
    cases asString (jget u (bs "id")) with
    | none => exact h
    | some id =>
      show StoreInvLive
        (match alookup acc.1.idToRow id with
         | none => acc
         | some rowIdx => (updateRowCore acc.1 rowIdx u true, acc.2 + 1)).1
      cases hlook : alookup acc.1.idToRow id with
      | none => exact h
      | some ridx =>
        exact updateRowCore_invLive u true h (h.2.1 _ (alookup_mem hlook))

theorem batchFold_inv (s0 : GridStore) (l : List JObj) (acc : GridStore × ℕ)
    (hI : StoreInv acc.1) (hid : acc.1.idToRow = s0.idToRow) (hdel : acc.1.deleted = s0.deleted)
    (hgood : ∀ u ∈ l, goodUpd s0 u = true) :
    StoreInv
        (l.foldl
          (fun (acc : GridStore × ℕ) u =>
            match asString (jget u (bs "id")) with
            | none => acc
            | some id =>
              match alookup acc.1.idToRow id with
              | none => acc
              | some rowIdx => (updateRowCore acc.1 rowIdx u true, acc.2 + 1)) acc).1 := by
  induction l generalizing acc with
  | nil => exact hI
  | cons u l ih =>
    simp only [List.foldl_cons]
    have hgu := hgood u (List.mem_cons_self u l)
    cases hids : asString (jget u (bs "id")) with
    | none =>
      exact ih acc hI hid hdel fun v hv => hgood v (List.mem_cons_of_mem u hv)
    | some id =>
      show StoreInv
        (l.foldl _
          (match alookup acc.1.idToRow id with
           | none => acc
           | some rowIdx => (updateRowCore acc.1 rowIdx u true, acc.2 + 1))).1
      cases hlook : alookup acc.1.idToRow id with
      | none => exact ih acc hI hid hdel fun v hv => hgood v (List.mem_cons_of_mem u hv)
      | some ridx =>
        have hlive : liveAt acc.1 ridx = true := by
          unfold goodUpd at hgu
          rw [hids] at hgu
          replace hgu : goodId s0 id = true := hgu
          unfold goodId at hgu
          rw [← hid, hlook] at hgu
          show (!(acc.1.deleted.getD ridx false)) = true
          rw [hdel]
          exact hgu
        refine ih _ ?_ ?_ ?_ fun v hv => hgood v (List.mem_cons_of_mem u hv)
        · exact updateRowCore_inv u true hI (hI.1.2.1 _ (alookup_mem hlook)) hlive
        · rw [updateRowCore_idToRow]
          exact hid
        · rw [updateRowCore_deleted]
          exact hdel

theorem batchUpdateS_invLive {s : GridStore} (us : List JObj) (hL : StoreInvLive s) :
    StoreInvLive (batchUpdateS s us).1 := by
  have h := batchFold_invLive us (s, 0) hL
  unfold batchUpdateS
  dsimp only []
  split
  · exact storeInvLive_setView _ h
  · exact h

theorem batchUpdateS_inv {s : GridStore} (us : List JObj) (hI : StoreInv s)
    (hg : goodStepB s (.bupd us) = true) : StoreInv (batchUpdateS s us).1 := by
  have hgood : ∀ u ∈ us, goodUpd s u = true := by
    replace hg : us.all (goodUpd s) = true := hg
    exact fun u hu => List.all_eq_true.mp hg u hu
  have h := batchFold_inv s us (s, 0) hI rfl rfl hgood
  unfold batchUpdateS
  dsimp only []
  split
  · exact storeInv_setView _ h
  · exact h

theorem runOp_inv {s : GridStore} {op : Op} (hI : StoreInv s)
    (hg : goodStepB s op = true) : StoreInv (runOp s op) := by
  cases op with
  | ins row => exact insertS_inv row hI
  | upd id changes => exact updateS_inv id changes hI hg
  | bupd us => exact batchUpdateS_inv us hI hg
  | del id => exact deleteS_inv id hI

theorem runOps_inv {s : GridStore} {ops : List Op} (hI : StoreInv s)
    (hg : goodTraceB s ops = true) : StoreInv (runOps s ops) := by
  induction ops generalizing s with
  | nil => exact hI
  | cons op ops ih =>
    unfold goodTraceB at hg
    rw [Bool.and_eq_true] at hg
    exact ih (runOp_inv hI hg.1) hg.2

theorem insertRowInternal_invLive {s : GridStore} {row : JObj} {s' : GridStore} {ridx : ℕ}
    (hL : StoreInvLive s) (h : insertRowInternal s row = .ok (s', ridx)) : StoreInvLive s' := by
  obtain ⟨⟨hdel, hcols⟩, hids, hN, hC⟩ := hL
  unfold insertRowInternal at h
  split at h
  · exact absurd h (by simp)
  split at h
  · exact absurd h (by simp)
  split at h
  · exact absurd h (by simp)
  rename_i idColName hcol id hid hdup
  simp only [Except.ok.injEq, Prod.mk.injEq] at h
  obtain ⟨hs', hridx⟩ := h
  subst hs'
  set sMid : GridStore :=
    { s with
      columns := s.columns.map fun c => { c with data := pushVal c.data (jget row c.name) }
      idToRow := aupd s.idToRow id s.rowCount
      deleted := s.deleted ++ [false]
      rowCount := s.rowCount + 1 } with hsMid
  have hcolframe : ∀ r < s.rowCount, ∀ ci, colText sMid r ci = colText s r ci := by
    intro r hr ci
    unfold colText
    show ((s.columns.map fun c =>
      { c with data := pushVal c.data (jget row c.name) }).get? ci).bind _ = _
    rw [List.get?_map]
    cases hg : s.columns.get? ci with
    | none => rfl
    | some c =>
      simp only [Option.map_some', Option.bind_eq_bind, Option.some_bind]
      exact colGetString_pushVal_lt (by rw [hcols c (List.get?_mem hg)]; exact hr) _
  have htext : ∀ r < s.rowCount, indexedText sMid r = indexedText s r := by
    intro r hr
    exact indexedText_congr r rfl fun ci _ => hcolframe r hr ci
  have hlive : ∀ r < s.rowCount, liveAt sMid r = liveAt s r := by
    intro r hr
    show (!((s.deleted ++ [false]).getD r false)) = (!(s.deleted.getD r false))
    rw [getD_append_lt (hdel ▸ hr)]
  refine ⟨⟨?_, ?_⟩, ?_, ?_, ?_⟩
  · show (s.deleted ++ [false]).length = s.rowCount + 1
    simp [hdel]
  · intro c hc
    rcases List.mem_map.mp hc with ⟨c0, hc0, hceq⟩
    rw [← hceq]
    show dataLen (pushVal c0.data (jget row c0.name)) = s.rowCount + 1
    rw [dataLen_pushVal, hcols c0 hc0]
  · intro p hp
    rcases mem_aupd hp with hm | he
    · exact Nat.lt_succ_of_lt (hids p hm)
    · rw [he]
      exact Nat.lt_succ_self _
  · exact keys_addTri_nodup hN
  · intro r hr2 hlive2 t ht
    show r ∈ lookupTri (addTri s.rowCount (indexedText sMid s.rowCount) s.trigram) t
    rw [lookupTri_addTri]
    rcases Nat.lt_succ_iff_lt_or_eq.mp hr2 with hrlt | hre
    · have hlv : liveAt s r = true := by rw [← hlive r hrlt]; exact hlive2
      have htx : t ∈ generateTrigrams (indexedText s r) := by
        rw [← htext r hrlt]
        exact ht
      have hmem := hC r hrlt hlv t htx
      by_cases hin : t ∈ generateTrigrams (indexedText sMid s.rowCount)
      · rw [if_pos hin]
        exact Finset.mem_insert_of_mem hmem
      · rw [if_neg hin]
        exact hmem
    · subst hre
      rw [if_pos (show t ∈ generateTrigrams (indexedText sMid s.rowCount) from ht)]
      exact Finset.mem_insert_self _ _

theorem insertS_invLive {s : GridStore} (row : JObj) (hL : StoreInvLive s) :
    StoreInvLive (insertS s row).1 := by
  unfold insertS
  cases h : insertRowInternal s row with
  | error e => exact hL
  | ok p =>
    obtain ⟨s', ridx⟩ := p
    exact storeInvLive_setView _ (insertRowInternal_invLive hL h)

theorem deleteS_invLive {s : GridStore} (id : Bytes) (hL : StoreInvLive s) :
    StoreInvLive (deleteS s id).1 := by
  unfold deleteS
  cases hlook : alookup s.idToRow id with
  | none => exact hL
  | some ridx =>
    obtain ⟨⟨hdel, hcols⟩, hids, hN, hC⟩ := hL
    have hrlt : ridx < s.rowCount := hids _ (alookup_mem hlook)
    refine ⟨⟨?_, ?_⟩, ?_, ?_, ?_⟩
    · show (s.deleted.set ridx true).length = s.rowCount
      rw [List.length_set, hdel]
    · exact hcols
    · exact hids
    · exact keys_removeTri_nodup hN
    · intro r hr2 hlive2 t ht
      replace hr2 : r < s.rowCount := hr2
      have hrne : r ≠ ridx := by
        intro he
        subst he
        replace hlive2 : (!((s.deleted.set r true).getD r false)) = true := hlive2
        rw [getD_set_lt (hdel ▸ hrlt)] at hlive2
        exact Bool.noConfusion hlive2
      replace hlive2 : (!((s.deleted.set ridx true).getD r false)) = true := hlive2
      rw [getD_set_ne hrne true false] at hlive2
      replace ht : t ∈ generateTrigrams (indexedText s r) := ht
      have hmem := hC r hr2 hlive2 t ht
      show r ∈ lookupTri (removeTri ridx (indexedText s ridx) s.trigram) t
      rw [lookupTri_removeTri]
      by_cases hin : t ∈ generateTrigrams (indexedText s ridx)
      · rw [if_pos hin]
        exact Finset.mem_erase.mpr ⟨hrne, hmem⟩
      · rw [if_neg hin]
        exact hmem

theorem runOp_invLive {s : GridStore} (op : Op) (hL : StoreInvLive s) :
    StoreInvLive (runOp s op) := by
  cases op with
  | ins row => exact insertS_invLive row hL
  | upd id changes => exact updateS_invLive id changes hL
  | bupd us => exact batchUpdateS_invLive us hL
  | del id => exact deleteS_invLive id hL

theorem runOps_invLive {s : GridStore} (ops : List Op) (hL : StoreInvLive s) :
    StoreInvLive (runOps s ops) := by
  induction ops generalizing s with
  | nil => exact hL
  | cons op ops ih => exact ih (runOp_invLive op hL)

theorem buildSchema_cols (schema : List JObj) :
    ∀ (i : ℕ) (cols : List GCol) (cidx : List (Bytes × ℕ)) (idc : ℕ) (icols : List ℕ)
      (res : List GCol × List (Bytes × ℕ) × ℕ × List ℕ),
      (∀ c ∈ cols, dataLen c.data = 0) →
      buildSchema schema i cols cidx idc icols = .ok res → ∀ c ∈ res.1, dataLen c.data = 0 := by
  induction schema with
  | nil =>
    intro i cols cidx idc icols res h hok
    unfold buildSchema at hok
    simp only [Except.ok.injEq] at hok
    rw [← hok]
    exact h
  | cons colDef rest ih =>
    intro i cols cidx idc icols res h hok
    unfold buildSchema at hok
    split at hok
    · exact absurd hok (by simp)
    split at hok
    · exact absurd hok (by simp)
    split at hok
    · exact absurd hok (by simp)
    rename_i name hname ty hty data hdata
    apply ih _ _ _ _ _ _ _ hok
    intro c hc
    rcases List.mem_append.mp hc with hm | hm
    · exact h c hm
    · have hdlen : dataLen data = 0 := by
        split_ifs at hdata with h1 h2
        · cases hdata
          rfl
        · cases hdata
          rfl
      rcases List.mem_singleton.mp hm with rfl
      exact hdlen

theorem gridNew_inv {schema : List JObj} {g : GridStore} (h : gridNew schema = .ok g) :
    StoreInv g ∧ g.rowCount = 0 ∧ g.deleted = [] ∧ g.idToRow = [] := by
  unfold gridNew at h
  cases hb : buildSchema schema 0 [] [] 0 [] with
  | error e =>
    rw [hb] at h
    exact absurd h (by simp [Except.map])
  | ok acc =>
    rw [hb] at h
    replace h : Except.ok
        ({ columns := acc.1, colIndex := acc.2.1, rowCount := 0, idColumn := acc.2.2.1,
           idToRow := [], deleted := [], trigram := [], indexedColumns := acc.2.2.2,
           view := viewNew } : GridStore) = Except.ok g := h
    rw [Except.ok.injEq] at h
    subst h
    refine ⟨⟨⟨⟨rfl, ?_⟩, ?_, ?_, ?_⟩, ?_⟩, rfl, rfl, rfl⟩
    · exact buildSchema_cols schema 0 [] [] 0 [] acc (by simp) hb
    · intro p hp
      simp at hp
    · simp [keysNodupTri]
    · intro r hr
      simp at hr
    · intro e he
      simp at he

theorem triWindows_short {l : Bytes} (h : l.length < 3) : triWindows l = [] := by
  match l with
  | [] => rfl
  | [a] => rfl
  | [a, b] => rfl
  | a :: b :: c :: rest => simp at h; omega

theorem generateTrigrams_short {l : Bytes} (h : l.length < 3) : generateTrigrams l = [] :=
  triWindows_short (by rw [lowerB_length]; exact h)

theorem generateTrigrams_long {l : Bytes} (h : 3 ≤ l.length) : generateTrigrams l ≠ [] :=
  triWindows_ne_nil (by rw [lowerB_length]; exact h)

theorem rowMatchesFilter_nil {s : GridStore} (h : s.view.filterText = []) (r : ℕ) :
    rowMatchesFilter s r = true := by
  unfold rowMatchesFilter
  rw [if_pos h]

theorem rowMatchesFilter_true_iff {s : GridStore} (hne : s.view.filterText ≠ []) (r : ℕ) :
    rowMatchesFilter s r = true ↔
      ∃ ci ∈ s.indexedColumns, ∃ text, colText s r ci = some text ∧
        containsB (lowerB text) s.view.filterText = true := by
  unfold rowMatchesFilter
  rw [if_neg hne, List.any_eq_true]
  constructor
  · rintro ⟨ci, hci, hp⟩
    cases htext : colText s r ci with
    | none => rw [htext] at hp; exact absurd hp (by simp)
    | some text =>
      rw [htext] at hp
      exact ⟨ci, hci, text, htext, hp⟩
  · rintro ⟨ci, hci, text, htext, hcont⟩
    refine ⟨ci, hci, ?_⟩
    rw [htext]
    exact hcont

theorem trigrams_mono_append (a pre post : Bytes) :
    ∀ t ∈ generateTrigrams a, t ∈ generateTrigrams ((pre ++ a) ++ post) := by
  intro t ht
  rw [generateTrigrams] at ht ⊢
  rcases (mem_triWindows t (lowerB a)).mp ht with ⟨p, q, hpq⟩
  apply (mem_triWindows t _).mpr
  refine ⟨lowerB pre ++ p, q ++ lowerB post, ?_⟩
  unfold lowerB
  rw [List.map_append, List.map_append]
  rw [show List.map asciiLower a = (p ++ [t.1, t.2.1, t.2.2]) ++ q from hpq]
  simp [List.append_assoc]

/-- A live, in-range row whose some indexed column contains the
(lowercased) filter is a trigram-search candidate. -/
theorem matching_row_in_candidates {s : GridStore} (hI : StoreInv s)
    (hlow : lowerB s.view.filterText = s.view.filterText)
    (h3 : 3 ≤ s.view.filterText.length) {r : ℕ} (hr : r < s.rowCount)
    (hlive : liveAt s r = true) (hmatch : rowMatchesFilter s r = true) :
    r ∈ searchIdx s.trigram s.view.filterText := by
  have hne : s.view.filterText ≠ [] := by
    intro he
    rw [he] at h3
    simp at h3
  rcases (rowMatchesFilter_true_iff hne r).mp hmatch with ⟨ci, hci, text, htext, hcont⟩
  apply mem_searchIdx.mpr
  refine ⟨generateTrigrams_long h3, fun t ht => ?_⟩
  have ht2 : t ∈ generateTrigrams text := trigrams_of_contains hcont hlow t ht
  rcases indexedText_has_col s r hci htext with ⟨pre, post, heq⟩
  have ht3 : t ∈ generateTrigrams (indexedText s r) := by
    rw [show indexedText s r = (pre ++ text) ++ post from by rw [heq]]
    exact trigrams_mono_append text pre post t ht2
  exact hI.1.2.2.2 r hr hlive t ht3

/-- Full characterisation of the seed stage: exactly the live, in-range,
filter-matching rows, without duplicates; and literally the ascending
scan whenever the filter is empty or shorter than 3 bytes. -/
theorem viewSeedStage_spec (e : Finset ℕ → List ℕ) (s : GridStore) (hI : StoreInv s)
    (hE : validEnum e) (hlow : lowerB s.view.filterText = s.view.filterText) :
    (∀ r, r ∈ viewSeedStage e s ↔
        r < s.rowCount ∧ liveAt s r = true ∧ rowMatchesFilter s r = true) ∧
      (viewSeedStage e s).Nodup ∧
      (s.view.filterText = [] ∨ s.view.filterText.length < 3 →
        viewSeedStage e s =
          (List.range s.rowCount).filter fun i => liveAt s i && rowMatchesFilter s i) := by
  by_cases hF : s.view.filterText = []
  · have hseed : viewSeedStage e s = (List.range s.rowCount).filter fun i => liveAt s i := by
      unfold viewSeedStage
      rw [if_pos hF]
    refine ⟨?_, ?_, ?_⟩
    · intro r
      rw [hseed]
      simp only [List.mem_filter, List.mem_range]
      exact ⟨fun ⟨h1, h2⟩ => ⟨h1, h2, rowMatchesFilter_nil hF r⟩, fun ⟨h1, h2, _⟩ => ⟨h1, h2⟩⟩
    · rw [hseed]
      exact List.Nodup.filter _ (List.nodup_range _)
    · intro _
      rw [hseed]
      apply List.filter_congr
      intro i _
      rw [rowMatchesFilter_nil hF i, Bool.and_true]
  · by_cases hshort : s.view.filterText.length < 3
    · have hsearch : searchIdx s.trigram s.view.filterText = ∅ := by
        unfold searchIdx
        rw [generateTrigrams_short hshort]
      have hcand : e (searchIdx s.trigram s.view.filterText) = [] := by
        rw [hsearch]
        exact validEnum_nil hE
      have hseed : viewSeedStage e s =
          (List.range s.rowCount).filter fun i => liveAt s i && rowMatchesFilter s i := by
        unfold viewSeedStage
        rw [if_neg hF]
        show (if e (searchIdx s.trigram s.view.filterText) = [] ∧
            s.view.filterText.length < 3 then _ else _) = _
        rw [if_pos ⟨hcand, hshort⟩]
      refine ⟨?_, ?_, fun _ => hseed⟩
      · intro r
        rw [hseed]
        simp only [List.mem_filter, List.mem_range, Bool.and_eq_true]
      · rw [hseed]
        exact List.Nodup.filter _ (List.nodup_range _)
    · have h3 : 3 ≤ s.view.filterText.length := Nat.not_lt.mp hshort
      have hseed : viewSeedStage e s =
          (e (searchIdx s.trigram s.view.filterText)).filter
            fun i => liveAt s i && rowMatchesFilter s i := by
        unfold viewSeedStage
        rw [if_neg hF]
        show (if e (searchIdx s.trigram s.view.filterText) = [] ∧
            s.view.filterText.length < 3 then _ else _) = _
        rw [if_neg fun hand => hshort hand.2]
      refine ⟨?_, ?_, ?_⟩
      · intro r
        rw [hseed]
        simp only [List.mem_filter, Bool.and_eq_true]
        constructor
        · rintro ⟨hmem, hlive, hmatch⟩
          have hcand : r ∈ searchIdx s.trigram s.view.filterText := ((hE _).2 r).mp hmem
          rcases mem_searchIdx.mp hcand with ⟨htne, hall⟩
          cases hts : generateTrigrams s.view.filterText with
          | nil => exact absurd hts htne
          | cons t0 ts =>
            have hr0 := hall t0 (by rw [hts]; exact List.mem_cons_self t0 ts)
            exact ⟨(triSound_lookup hI.2 hr0).1, hlive, hmatch⟩
        · rintro ⟨hr, hlive, hmatch⟩
          exact ⟨((hE _).2 r).mpr (matching_row_in_candidates hI hlow h3 hr hlive hmatch),
            hlive, hmatch⟩
      · rw [hseed]
        exact List.Nodup.filter _ (hE _).1
      · intro hcase
        rcases hcase with hc | hc
        · exact absurd hc hF
        · exact absurd hc hshort

theorem viewSortApply_perm (s : GridStore) (ci : Nat) (dir : SortDir) (seed : List Nat) :
    (viewSortApply s ci dir seed).Perm seed := by
  unfold viewSortApply
  by_cases hd : dir = .nosort
  · rw [if_pos hd]
  · rw [if_neg hd]
    cases (s.columns.get? ci).map GCol.data with
    | none => exact List.Perm.refl _
    | some d =>
      cases d with
      | strs v => exact stableSortBy_perm _ _
      | nums v => exact stableSortBy_perm _ _

theorem viewSortStage_perm (s : GridStore) (seed : List Nat) :
    (viewSortStage s seed).Perm seed := by
  unfold viewSortStage
  cases s.view.sortColumn with
  | none => exact List.Perm.refl _
  | some ci => exact viewSortApply_perm s ci s.view.sortDir seed

theorem ensureView_cached (e : Finset ℕ → List ℕ) {s : GridStore}
    (hc : s.view.cachedView = none) :
    (ensureView e s).view.cachedView = some (viewSortStage s (viewSeedStage e s)) := by
  unfold ensureView
  rw [hc]
  rfl

/-- Full characterisation of a view materialised from scratch. -/
theorem ensureView_spec (e : Finset ℕ → List ℕ) (s : GridStore) (hI : StoreInv s)
    (hE : validEnum e) (hlow : lowerB s.view.filterText = s.view.filterText)
    (hc : s.view.cachedView = none) :
    ∃ v, (ensureView e s).view.cachedView = some v ∧
      (∀ r, r ∈ v ↔ r < s.rowCount ∧ liveAt s r = true ∧ rowMatchesFilter s r = true) ∧
      v.Nodup ∧
      (s.view.filterText = [] ∨ s.view.filterText.length < 3 →
        s.view.sortColumn = none ∨ s.view.sortDir = SortDir.nosort →
        v = (List.range s.rowCount).filter fun i => liveAt s i && rowMatchesFilter s i) := by
  obtain ⟨hmem, hnd, hexact⟩ := viewSeedStage_spec e s hI hE hlow
  have hperm := viewSortStage_perm s (viewSeedStage e s)
  refine ⟨viewSortStage s (viewSeedStage e s), ensureView_cached e hc, ?_, ?_, ?_⟩
  · intro r
    rw [hperm.mem_iff]
    exact hmem r
  · exact hperm.nodup_iff.mpr hnd
  · intro h1 h2
    have hsorted : viewSortStage s (viewSeedStage e s) = viewSeedStage e s := by
      unfold viewSortStage
      rcases h2 with hc2 | hc2
      · rw [hc2]
      · cases hcol : s.view.sortColumn with
        | none => rfl
        | some ci =>
          show viewSortApply s ci s.view.sortDir (viewSeedStage e s) = viewSeedStage e s
          unfold viewSortApply
          rw [hc2, if_pos rfl]
    rw [hsorted]
    exact hexact h1

theorem ensureView_idem (e e' : Finset ℕ → List ℕ) (s : GridStore) :
    ensureView e' (ensureView e s) = ensureView e s := by
  unfold ensureView
  by_cases h : s.view.cachedView.isSome
  · rw [if_pos h, if_pos h]
  · rw [if_neg h]
    rfl

def isOkE {ε α : Type} : Except ε α → Bool
  | .ok _ => true
  | .error _ => false

/-- The only per-column check `GridStore::new` actually performs: a string
`name`, a string `type`, and a known type string. -/
def colOkB (c : JObj) : Bool :=
  match asString (jget c (bs "name")) with
  | none => false
  | some _ =>
    match asString (jget c (bs "type")) with
    | none => false
    | some ty =>
      if ty = bs "string" then true
      else if ty = bs "number" ∨ ty = bs "integer" then true
      else false

theorem buildSchema_isOk (schema : List JObj) :
    ∀ (i : ℕ) (cols : List GCol) (cidx : List (Bytes × ℕ)) (idc : ℕ) (icols : List ℕ),
      isOkE (buildSchema schema i cols cidx idc icols) = schema.all colOkB := by
  induction schema with
  | nil =>
    intro i cols cidx idc icols
    rfl
  | cons c rest ih =>
    intro i cols cidx idc icols
    unfold buildSchema
    cases hname : asString (jget c (bs "name")) with
    | none => simp [isOkE, colOkB, hname]
    | some name =>
      cases hty : asString (jget c (bs "type")) with
      | none => simp [isOkE, colOkB, hname, hty]
      | some ty =>
        by_cases h1 : ty = bs "string"
        · simp [isOkE, colOkB, hname, hty, h1]
          exact ih _ _ _ _ _
        · by_cases h2 : ty = bs "number" ∨ ty = bs "integer"
          · simp [isOkE, colOkB, hname, hty, h1, h2]
            exact ih _ _ _ _ _
          · simp [isOkE, colOkB, hname, hty, h1, h2]

theorem gridNew_isOk (schema : List JObj) : isOkE (gridNew schema) = schema.all colOkB := by
  unfold gridNew
  rw [← buildSchema_isOk schema 0 [] [] 0 []]
  cases buildSchema schema 0 [] [] 0 [] <;> rfl

-- ===========================================================================
-- Shared concrete schemas and stores for the claims
-- ===========================================================================

def jn (s : String) : Bytes := bs s

def colId : JObj :=
  [(bs "name", .str (bs "id")), (bs "type", .str (bs "string")), (bs "primaryKey", .jbool true)]

def colSym : JObj :=
  [(bs "name", .str (bs "sym")), (bs "type", .str (bs "string")), (bs "indexed", .jbool true)]

def colA : JObj :=
  [(bs "name", .str (bs "a")), (bs "type", .str (bs "string")), (bs "indexed", .jbool true)]

def colB : JObj :=
  [(bs "name", .str (bs "b")), (bs "type", .str (bs "string")), (bs "indexed", .jbool true)]

def colPx : JObj :=
  [(bs "name", .str (bs "px")), (bs "type", .str (bs "number"))]

/-- A number-typed primary-key column (invalid per the spec's rules). -/
def colBadPk : JObj :=
  [(bs "name", .str (bs "n")), (bs "type", .str (bs "number")), (bs "primaryKey", .jbool true)]

-- ===========================================================================
-- Claim C3
-- ===========================================================================

/-- C3 counterexample: the constructor performs none of the claimed schema
validation — the empty schema (no columns, no primary key) and a schema
with two identical number-typed primary-key columns are both accepted,
where the claim demands a `SchemaError`. -/
theorem claim3_counterexample :
    isOkE (gridNew []) = true ∧ isOkE (gridNew [colBadPk, colBadPk]) = true := by
  constructor
  · rfl
  · rfl

/-- C3 (amended): `GridStore::new` succeeds exactly when every column
descriptor has a string `name`, a string `type`, and a type among
`string`/`number`/`integer`; it checks nothing about primary keys, name
uniqueness, or non-emptiness. -/
theorem claim3_thm : ∀ schema : List JObj, isOkE (gridNew schema) = schema.all colOkB :=
  gridNew_isOk

-- ===========================================================================
-- Claim C4
-- ===========================================================================

def c4s : GridStore :=
  runOps (getOk (gridNew [colId, colPx]))
    [Op.ins [(bs "id", .str (bs "x")), (bs "px", .num none)],
     Op.ins [(bs "id", .str (bs "y")), (bs "px", .num (some 5))],
     Op.ins [(bs "id", .str (bs "z")), (bs "px", .num (some 5))]]

def c4asc : GridStore := setSortG c4s (bs "px") .asc

def c4desc : GridStore := setSortG c4s (bs "px") .desc

/-- C4 counterexample: with rows `px = NaN, 5, 5` sorted ascending by
`px`, the view is `[0, 1, 2]` — the NaN row (row 0, projecting to null)
sits *before* the non-NaN rows, not after them as the claim requires. -/
theorem claim4_counterexample :
    (viewIndicesS ascEnum (viewCountS ascEnum c4asc).1 0 (viewCountS ascEnum c4asc).2).2 =
        some [0, 1, 2] ∧
      getCell c4asc 0 (bs "px") = JVal.null ∧
      getCell c4asc 1 (bs "px") = JVal.num (some 5) := by
  refine ⟨?_, ?_, ?_⟩ <;> decide

/-- C4 (amended): the comparator is `partial_cmp(..).unwrap_or(Equal)`,
so a NaN operand compares *equal* to everything (not greater).  Under the
stable sort NaN rows therefore keep their seed position: in the
`NaN, 5, 5` scenario both the ascending and the descending view stay
`[0, 1, 2]`; equal non-NaN values do keep insertion order. -/
theorem claim4_thm :
    (∀ b, numCmp none b = Ordering.eq) ∧ (∀ a, numCmp a none = Ordering.eq) ∧
      (viewIndicesS ascEnum (viewCountS ascEnum c4asc).1 0 (viewCountS ascEnum c4asc).2).2 =
        some [0, 1, 2] ∧
      (viewIndicesS ascEnum (viewCountS ascEnum c4desc).1 0 (viewCountS ascEnum c4desc).2).2 =
        some [0, 1, 2] ∧
      getCell c4asc 0 (bs "px") = JVal.null ∧
      getCell c4asc 1 (bs "px") = JVal.num (some 5) ∧
      getCell c4asc 2 (bs "px") = JVal.num (some 5) := by
  refine ⟨fun b => ?_, fun a => ?_, ?_, ?_, ?_, ?_, ?_⟩
  · cases b <;> rfl
  · cases a <;> rfl
  all_goals decide

instance (s : GridStore) : Decidable (lengthsOk s) := by unfold lengthsOk; infer_instance

instance (s : GridStore) : Decidable (idsOk s) := by unfold idsOk; infer_instance

instance (s : GridStore) : Decidable (keysNodupTri s) := by unfold keysNodupTri; infer_instance

instance (s : GridStore) : Decidable (triComplete s) := by unfold triComplete; infer_instance

instance (s : GridStore) : Decidable (triSound s) := by unfold triSound; infer_instance

instance (s : GridStore) : Decidable (StoreInvLive s) := by unfold StoreInvLive; infer_instance

instance (s : GridStore) : Decidable (StoreInv s) := by unfold StoreInv; infer_instance

-- ===========================================================================
-- Claim C1
-- ===========================================================================

/-- Modelled from the spec's words (P2): "the list of live row indices
whose indexed text contains F (case-insensitive substring)", in ascending
row order, as the claim reads with no sort set.  This is the claim's
reference list, to be compared with the view the code computes. -/
def specViewListNoSort (s : GridStore) : List Nat :=
  (List.range s.rowCount).filter fun i =>
    liveAt s i && containsB (lowerB (indexedText s i)) s.view.filterText

def demoB1 : GridStore :=
  (insertS (getOk (gridNew [colId, colA, colB]))
    [(bs "id", .str (bs "r0")), (bs "a", .str (bs "ab")), (bs "b", .str (bs "cd"))]).1

def demoB2 : GridStore := setFilterG demoB1 (bs "b c")

/-- C1 counterexample: with two indexed columns holding `"ab"` and
`"cd"`, the row's indexed text is `"ab cd"`, which contains the filter
`"b c"` — so the claim's reference list is `[0]`.  But the verification
scan of `ensure_view` tests each indexed column separately, so the code's
view is empty: `viewIndices(0, viewCount())` ≠ the claimed list.  (On top
of this, the order of the trigram-candidate path comes from HashSet
iteration and is unspecified.) -/
theorem claim1_counterexample :
    (viewIndicesS ascEnum (viewCountS ascEnum demoB2).1 0 (viewCountS ascEnum demoB2).2).2 =
        some [] ∧
      specViewListNoSort demoB2 = [0] := by
  constructor <;> decide

/-- C1 (amended): for a store satisfying the index invariant, any valid
linearisation of the candidate set, a lowercased filter and an empty
cache, `viewIndices(0, viewCount())` contains exactly the live in-range
rows with *some indexed column* containing the filter (each once); and
when the filter is empty or shorter than 3 bytes and no sort is set, it
is exactly that set in ascending row order.  On the trigram path the
order is unspecified. -/
theorem claim1_thm (e : Finset ℕ → List ℕ) (s : GridStore) (hI : StoreInv s)
    (hE : validEnum e) (hlow : lowerB s.view.filterText = s.view.filterText)
    (hc : s.view.cachedView = none) :
    ∃ v, (viewIndicesS e (viewCountS e s).1 0 (viewCountS e s).2).2 = some v ∧
      (∀ r, r ∈ v ↔ r < s.rowCount ∧ liveAt s r = true ∧ rowMatchesFilter s r = true) ∧
      v.Nodup ∧
      (s.view.filterText = [] ∨ s.view.filterText.length < 3 →
        s.view.sortColumn = none ∨ s.view.sortDir = SortDir.nosort →
        v = (List.range s.rowCount).filter fun i => liveAt s i && rowMatchesFilter s i) := by
  obtain ⟨v, hv, hmem, hnd, hex⟩ := ensureView_spec e s hI hE hlow hc
  refine ⟨v, ?_, hmem, hnd, hex⟩
  show (viewIndicesS e (ensureView e s) 0
    ((ensureView e s).view.cachedView.getD []).length).2 = some v
  unfold viewIndicesS
  rw [ensureView_idem]
  simp [hv]

theorem claim1_witness :
    ∃ v, (viewIndicesS ascEnum (viewCountS ascEnum demoB2).1 0
        (viewCountS ascEnum demoB2).2).2 = some v ∧
      (∀ r, r ∈ v ↔
        r < demoB2.rowCount ∧ liveAt demoB2 r = true ∧ rowMatchesFilter demoB2 r = true) ∧
      v.Nodup ∧
      (demoB2.view.filterText = [] ∨ demoB2.view.filterText.length < 3 →
        demoB2.view.sortColumn = none ∨ demoB2.view.sortDir = SortDir.nosort →
        v = (List.range demoB2.rowCount).filter
          fun i => liveAt demoB2 i && rowMatchesFilter demoB2 i) :=
  claim1_thm ascEnum demoB2 (by decide) validEnum_ascEnum (by decide) (by decide)

-- ===========================================================================
-- Claim C2
-- ===========================================================================

def c2bad : GridStore :=
  runOps (getOk (gridNew [colId, colSym]))
    [Op.ins [(bs "id", .str (bs "aa")), (bs "sym", .str (bs "abcd"))],
     Op.del (bs "aa"),
     Op.upd (bs "aa") [(bs "sym", .str (bs "wxyz"))]]

/-- C2 counterexample: insert a row, delete it, then update it (`update`
looks ids up in `id_to_row`, which never forgets tombstoned rows, and
re-adds the new text's trigrams).  Afterwards row 0 is tombstoned yet
sits in the posting list of trigram `"wxy"` — the claim's "no posting
list contains a tombstoned row" is violated. -/
theorem claim2_counterexample :
    c2bad.deleted.getD 0 false = true ∧ 0 ∈ lookupTri c2bad.trigram (119, 120, 121) := by
  constructor <;> decide

/-- C2 (amended): from any freshly constructed store, after an arbitrary
sequence of insert/update/batchUpdate/delete the *live* half of the
invariant holds (every live row is in the posting list of each trigram of
its current indexed text); and if no update/batchUpdate ever addresses a
tombstoned row, the full invariant holds — in particular no posting list
contains a tombstoned row. -/
theorem claim2_thm (schema : List JObj) (g : GridStore) (ops : List Op)
    (h : gridNew schema = .ok g) :
    StoreInvLive (runOps g ops) ∧
      (goodTraceB g ops = true → StoreInv (runOps g ops)) :=
  have h0 := gridNew_inv h
  ⟨runOps_invLive ops h0.1.1, fun hg => runOps_inv h0.1 hg⟩

def c2goodOps : List Op :=
  [Op.ins [(bs "id", .str (bs "aa")), (bs "sym", .str (bs "abcd"))],
   Op.upd (bs "aa") [(bs "sym", .str (bs "wxyz"))],
   Op.bupd [[(bs "id", .str (bs "aa")), (bs "sym", .str (bs "qrst"))]],
   Op.del (bs "aa")]

theorem claim2_witness :
    StoreInvLive (runOps (getOk (gridNew [colId, colSym])) c2goodOps) ∧
      (goodTraceB (getOk (gridNew [colId, colSym])) c2goodOps = true →
        StoreInv (runOps (getOk (gridNew [colId, colSym])) c2goodOps)) :=
  claim2_thm [colId, colSym] (getOk (gridNew [colId, colSym])) c2goodOps rfl

-- ===========================================================================
-- Claim C5
-- ===========================================================================

/-- What every operation preserves about row identity: the primary-key
column position, all column names, and every id ever present in
`id_to_row` (ids are never removed, even by delete). -/
def IdFrame (s s' : GridStore) : Prop :=
  s'.idColumn = s.idColumn ∧
    (∀ i, (s'.columns.get? i).map GCol.name = (s.columns.get? i).map GCol.name) ∧
    (∀ id, (alookup s.idToRow id).isSome = true → (alookup s'.idToRow id).isSome = true)

theorem idFrame_refl (s : GridStore) : IdFrame s s := ⟨rfl, fun _ => rfl, fun _ h => h⟩

theorem idFrame_trans {s1 s2 s3 : GridStore} (h1 : IdFrame s1 s2) (h2 : IdFrame s2 s3) :
    IdFrame s1 s3 :=
  ⟨h2.1.trans h1.1, fun i => (h2.2.1 i).trans (h1.2.1 i),
    fun id h => h2.2.2 id (h1.2.2 id h)⟩

theorem colName_setCellValue (s : GridStore) (r ci : ℕ) (v : JVal) (i : ℕ) :
    ((setCellValue s r ci v).columns.get? i).map GCol.name =
      (s.columns.get? i).map GCol.name := by
  unfold setCellValue
  cases hg : s.columns.get? ci with
  | none => rfl
  | some c =>
    by_cases hi : i = ci
    · subst hi
      have hg' : s.columns[i]? = some c := by
        rw [← List.get?_eq_getElem?]
        exact hg
      simp [List.getElem?_set_self', hg']
    · rw [List.get?_set_ne _ _ (fun he => hi he.symm)]

theorem colName_cellFold (rowIdx : ℕ) (changes : JObj) (skipId : Bool)
    (l : List (Bytes × JVal)) (s : GridStore) (i : ℕ) :
    (((l.foldl
        (fun acc kv =>
          if skipId ∧ kv.1 = bs "id" then acc
          else
            match alookup acc.colIndex kv.1 with
            | some ci => setCellValue acc rowIdx ci (jget changes kv.1)
            | none => acc) s).columns.get? i).map GCol.name) =
      (s.columns.get? i).map GCol.name := by
  induction l generalizing s with
  | nil => rfl
  | cons kv l ih =>
    simp only [List.foldl_cons]
    rw [ih]
    by_cases hskip : skipId ∧ kv.1 = bs "id"
    · rw [if_pos hskip]
    · rw [if_neg hskip]
      cases alookup s.colIndex kv.1 with
      | none => rfl
      | some ci0 => exact colName_setCellValue s rowIdx ci0 _ i

theorem idFrame_updateRowCore (s : GridStore) (rowIdx : ℕ) (changes : JObj) (skip : Bool) :
    IdFrame s (updateRowCore s rowIdx changes skip) := by
  refine ⟨?_, ?_, ?_⟩
  · exact (sameSkeleton_applyCellChanges s rowIdx changes skip).2.2.1
  · intro i
    exact colName_cellFold rowIdx changes skip changes s i
  · intro id h
    rw [show (updateRowCore s rowIdx changes skip).idToRow = s.idToRow from
      (sameSkeleton_applyCellChanges s rowIdx changes skip).2.2.2.1]
    exact h

theorem idFrame_insertS (s : GridStore) (row : JObj) : IdFrame s (insertS s row).1 := by
  unfold insertS
  cases h : insertRowInternal s row with
  | error e => exact idFrame_refl s
  | ok p =>
    obtain ⟨s', ridx⟩ := p
    suffices hf : IdFrame s s' by exact ⟨hf.1, hf.2.1, hf.2.2⟩
    unfold insertRowInternal at h
    split at h
    · exact absurd h (by simp)
    split at h
    · exact absurd h (by simp)
    split at h
    · exact absurd h (by simp)
    rename_i idColName hcol id hid hdup
    simp only [Except.ok.injEq, Prod.mk.injEq] at h
    obtain ⟨hs', hridx⟩ := h
    subst hs'
    refine ⟨rfl, ?_, ?_⟩
    · intro i
      show ((s.columns.map fun c =>
        { c with data := pushVal c.data (jget row c.name) }).get? i).map GCol.name = _
      rw [List.get?_map]
      cases s.columns.get? i <;> rfl
    · intro id' h'
      show (alookup (aupd s.idToRow id s.rowCount) id').isSome = true
      rw [alookup_aupd]
      by_cases he : id' = id
      · simp [he]
      · rw [if_neg he]
        exact h'

theorem idFrame_updateS (s : GridStore) (id : Bytes) (changes : JObj) :
    IdFrame s (updateS s id changes).1 := by
  unfold updateS
  cases alookup s.idToRow id with
  | none => exact idFrame_refl s
  | some ridx =>
    have hf := idFrame_updateRowCore s ridx changes false
    exact ⟨hf.1, hf.2.1, hf.2.2⟩

theorem idFrame_batchUpdateS (s : GridStore) (us : List JObj) :
    IdFrame s (batchUpdateS s us).1 := by
  have hfold : ∀ acc : GridStore × ℕ, IdFrame s acc.1 →
      IdFrame s
        ((us.foldl
          (fun (acc : GridStore × ℕ) u =>
            match asString (jget u (bs "id")) with
            | none => acc
            | some id =>
              match alookup acc.1.idToRow id with
              | none => acc
              | some rowIdx => (updateRowCore acc.1 rowIdx u true, acc.2 + 1)) acc).1) := by
    induction us with
    | nil => exact fun acc h => h
    | cons u l ih =>
      intro acc h
      simp only [List.foldl_cons]
      apply ih
      cases asString (jget u (bs "id")) with
      | none => exact h
      | some id =>
        show IdFrame s
          (match alookup acc.1.idToRow id with
           | none => acc
           | some rowIdx => (updateRowCore acc.1 rowIdx u true, acc.2 + 1)).1
        cases alookup acc.1.idToRow id with
        | none => exact h
        | some ridx => exact idFrame_trans h (idFrame_updateRowCore acc.1 ridx u true)
  have h := hfold (s, 0) (idFrame_refl s)
  unfold batchUpdateS
  dsimp only []
  split
  · exact ⟨h.1, h.2.1, h.2.2⟩
  · exact h

theorem idFrame_deleteS (s : GridStore) (id : Bytes) : IdFrame s (deleteS s id).1 := by
  unfold deleteS
  cases alookup s.idToRow id with
  | none => exact idFrame_refl s
  | some ridx => exact ⟨rfl, fun _ => rfl, fun _ h => h⟩

theorem idFrame_runOp (s : GridStore) (op : Op) : IdFrame s (runOp s op) := by
  cases op with
  | ins row => exact idFrame_insertS s row
  | upd id changes => exact idFrame_updateS s id changes
  | bupd us => exact idFrame_batchUpdateS s us
  | del id => exact idFrame_deleteS s id

theorem idFrame_runOps (s : GridStore) (ops : List Op) : IdFrame s (runOps s ops) := by
  induction ops generalizing s with
  | nil => exact idFrame_refl s
  | cons op ops ih => exact idFrame_trans (idFrame_runOp s op) (ih (runOp s op))

/-- Inserting a row whose primary key is already present in `id_to_row`
fails with the duplicate-id error and returns the store unchanged (the
check precedes every mutation). -/
theorem insertS_dup {t : GridStore} {row : JObj} {id : Bytes} {col : GCol}
    (hcol : t.columns.get? t.idColumn = some col)
    (hrow : asString (jget row col.name) = some id)
    (hin : (alookup t.idToRow id).isSome = true) :
    insertS t row = (t, .error (.duplicateId id)) := by
  unfold insertS insertRowInternal
  have hcol' : t.columns[t.idColumn]? = some col := by
    rw [← List.get?_eq_getElem?]
    exact hcol
  simp [hcol', hrow, hin]

/-- C5: once an id has been inserted it stays reserved through any
sequence of operations — deletes included — and a later insert of the
same id fails with `DuplicateId`, leaving the store unchanged. -/
theorem claim5_thm (s : GridStore) (ops : List Op) (row : JObj) (id : Bytes) (col : GCol)
    (hcol : s.columns.get? s.idColumn = some col)
    (hrow : asString (jget row col.name) = some id)
    (hin : (alookup s.idToRow id).isSome = true) :
    insertS (runOps s ops) row = (runOps s ops, .error (.duplicateId id)) := by
  obtain ⟨h1, h2, h3⟩ := idFrame_runOps s ops
  have hname : ((runOps s ops).columns.get? (runOps s ops).idColumn).map GCol.name =
      some col.name := by
    rw [h1, h2 s.idColumn, hcol]
    rfl
  rcases Option.map_eq_some'.mp hname with ⟨col', hcol', hname'⟩
  exact insertS_dup hcol' (by rw [hname']; exact hrow) (h3 id hin)

theorem claim5_witness :
    insertS (runOps demoB1 [Op.del (bs "r0")]) [(bs "id", JVal.str (bs "r0"))] =
      (runOps demoB1 [Op.del (bs "r0")], .error (.duplicateId (bs "r0"))) :=
  claim5_thm demoB1 [Op.del (bs "r0")] [(bs "id", JVal.str (bs "r0"))] (bs "r0")
    ⟨bs "id", ColData.strs [bs "r0"], false⟩ (by decide) (by decide) (by decide)

-- ===========================================================================
-- Claim C6
-- ===========================================================================

/-- C6: `setFilter` with a string equal to the current (stored) filter
text, and `setSort` with a column name resolving to the current sort
column together with the current direction, leave the store — in
particular `cached_view` — entirely unchanged, so a re-materialisation
returns the identical state. -/
theorem claim6_thm (e : Finset ℕ → List ℕ) (s : GridStore) (col : Bytes) (dir : SortDir)
    (h1 : alookup s.colIndex col = s.view.sortColumn) (h2 : dir = s.view.sortDir) :
    setFilterG s s.view.filterText = s ∧ setSortG s col dir = s ∧
      ensureView e (setFilterG s s.view.filterText) = ensureView e s ∧
      ensureView e (setSortG s col dir) = ensureView e s := by
  subst h2
  have hf : setFilterG s s.view.filterText = s := by
    unfold setFilterG
    rw [if_neg (by simp)]
  have hs : setSortG s col s.view.sortDir = s := by
    simp [setSortG, h1]
  exact ⟨hf, hs, by rw [hf], by rw [hs]⟩

theorem claim6_witness :
    setFilterG demoB2 demoB2.view.filterText = demoB2 ∧
      setSortG demoB2 (bs "zz") SortDir.nosort = demoB2 ∧
      ensureView ascEnum (setFilterG demoB2 demoB2.view.filterText) = ensureView ascEnum demoB2 ∧
      ensureView ascEnum (setSortG demoB2 (bs "zz") SortDir.nosort) = ensureView ascEnum demoB2 :=
  claim6_thm ascEnum demoB2 (bs "zz") SortDir.nosort (by decide) (by decide)

-- ===========================================================================
-- Claim C7
-- ===========================================================================

def c7s : GridStore :=
  runOps (getOk (gridNew [colId, colSym]))
    [Op.ins [(bs "id", .str (bs "aa")), (bs "sym", .str (bs "abcd"))], Op.del (bs "aa")]

/-- C7 counterexample: deleting the already-deleted row `"aa"` *succeeds*
(`id_to_row` still finds the tombstoned row), where the claim says it
fails with `NotFound`. -/
theorem claim7_counterexample : (deleteS c7s (bs "aa")).2 = Except.ok () := by decide

theorem removeTri_of_absent {idx : TriIdx} {r : ℕ} (h : ∀ t, r ∉ lookupTri idx t)
    (text : Bytes) : removeTri r text idx = idx := by
  unfold removeTri
  generalize generateTrigrams text = l
  induction l with
  | nil => rfl
  | cons t ts ih =>
    simp only [List.foldl_cons]
    have hstep : (match alookup idx t with
        | some pst => aupd idx t (pst.erase r)
        | none => idx) = idx := by
      cases halo : alookup idx t with
      | none => rfl
      | some pst =>
        have hnm : r ∉ pst := by
          have hh := h t
          simp only [lookupTri, halo, Option.getD_some] at hh
          exact hh
        show aupd idx t (pst.erase r) = idx
        rw [Finset.erase_eq_of_not_mem hnm, aupd_self halo]
    rw [hstep]
    exact ih

theorem set_of_getD {l : List Bool} {r : ℕ} (hlt : r < l.length)
    (h : l.getD r false = true) : l.set r true = l := by
  induction l generalizing r with
  | nil => simp at hlt
  | cons b bs' ih =>
    cases r with
    | zero =>
      have hb : b = true := h
      show true :: bs' = b :: bs'
      rw [hb]
    | succ n =>
      show b :: bs'.set n true = b :: bs'
      rw [ih (Nat.lt_of_succ_lt_succ hlt) h]

/-- C7 (amended): deleting an already-deleted row *succeeds* (`Ok`), and
is idempotent: the tombstone is already set and the text was already
removed from the index, so the only effect is clearing `cached_view`. -/
theorem claim7_thm (s : GridStore) (id : Bytes) (r : ℕ) (hI : StoreInv s)
    (hr : alookup s.idToRow id = some r) (hd : s.deleted.getD r false = true) :
    deleteS s id = ({ s with view := { s.view with cachedView := none } }, Except.ok ()) := by
  have habs : ∀ t, r ∉ lookupTri s.trigram t := by
    intro t hmem
    have hl := (triSound_lookup hI.2 hmem).2.1
    rw [show liveAt s r = !(s.deleted.getD r false) from rfl, hd] at hl
    exact Bool.noConfusion hl
  have hrem : removeTri r (indexedText s r) s.trigram = s.trigram := removeTri_of_absent habs _
  have hlt : r < s.deleted.length := by
    rw [hI.1.1.1]
    exact hI.1.2.1 _ (alookup_mem hr)
  have hset : s.deleted.set r true = s.deleted := set_of_getD hlt hd
  unfold deleteS
  rw [hr]
  show ({ s with
      trigram := removeTri r (indexedText s r) s.trigram
      deleted := s.deleted.set r true
      view := { s.view with cachedView := none } }, Except.ok ()) = _
  rw [hrem, hset]

theorem claim7_witness :
    deleteS c7s (bs "aa") =
      ({ c7s with view := { c7s.view with cachedView := none } }, Except.ok ()) :=
  claim7_thm c7s (bs "aa") 0 (by decide) (by decide) (by decide)

-- ===========================================================================
-- Claim C8
-- ===========================================================================

def demoE : GridStore := getOk (gridNew [colId])

/-- C8 counterexample: on an empty view, `viewIndices(1, 0)` (and
`getVisibleRows(1, 0)`) hit Rust's slice panic — `start` exceeds the view
length, so `&view[start..end]` has `start > end` — instead of returning a
shorter or empty array as the claim states. -/
theorem claim8_counterexample :
    (viewIndicesS ascEnum demoE 1 0).2 = none ∧ (getVisibleRowsS ascEnum demoE 1 0).2 = none := by
  constructor <;> decide

/-- C8 (amended): only the *end* of the slice is clamped
(`end = min (start+count) len`).  When `start ≤ len` the call returns the
clamped slice (never longer than `count`); when `start > len` both
`viewIndices` and `getVisibleRows` panic (modelled as `none`). -/
theorem claim8_thm (e : Finset ℕ → List ℕ) (s : GridStore) (start count : ℕ) :
    ((viewIndicesS e s start count).2.isSome = true ↔
        start ≤ ((ensureView e s).view.cachedView.getD []).length) ∧
      (start ≤ ((ensureView e s).view.cachedView.getD []).length →
        (viewIndicesS e s start count).2 =
          some ((((ensureView e s).view.cachedView.getD []).drop start).take
            (min (start + count) (((ensureView e s).view.cachedView.getD []).length) - start))) ∧
      (∀ l, (viewIndicesS e s start count).2 = some l → l.length ≤ count) ∧
      ((getVisibleRowsS e s start count).2.isSome = true ↔
        start ≤ ((ensureView e s).view.cachedView.getD []).length) := by
  have hiff : start ≤ min (start + count) (((ensureView e s).view.cachedView.getD []).length) ↔
      start ≤ ((ensureView e s).view.cachedView.getD []).length :=
    ⟨fun h => le_trans h (min_le_right _ _), fun h => le_min (Nat.le_add_right _ _) h⟩
  refine ⟨?_, ?_, ?_, ?_⟩
  · unfold viewIndicesS
    by_cases h : start ≤ ((ensureView e s).view.cachedView.getD []).length
    · rw [if_pos (hiff.mpr h)]
      simpa using h
    · rw [if_neg fun hh => h (hiff.mp hh)]
      simpa using h
  · intro h
    unfold viewIndicesS
    rw [if_pos (hiff.mpr h)]
  · intro l hl
    unfold viewIndicesS at hl
    by_cases h : start ≤ ((ensureView e s).view.cachedView.getD []).length
    · rw [if_pos (hiff.mpr h)] at hl
      simp only [Option.some.injEq] at hl
      rw [← hl]
      simp only [List.length_take, List.length_drop]
      omega
    · rw [if_neg fun hh => h (hiff.mp hh)] at hl
      exact absurd hl (by simp)
  · unfold getVisibleRowsS
    by_cases h : start ≤ ((ensureView e s).view.cachedView.getD []).length
    · rw [if_pos (hiff.mpr h)]
      simpa using h
    · rw [if_neg fun hh => h (hiff.mp hh)]
      simpa using h

theorem claim8_witness :
    ((viewIndicesS ascEnum demoE 0 5).2.isSome = true ↔
        0 ≤ ((ensureView ascEnum demoE).view.cachedView.getD []).length) ∧
      (viewIndicesS ascEnum demoE 0 5).2 =
        some ((((ensureView ascEnum demoE).view.cachedView.getD []).drop 0).take
          (min (0 + 5) (((ensureView ascEnum demoE).view.cachedView.getD []).length) - 0)) ∧
      ((getVisibleRowsS ascEnum demoE 2 1).2.isSome = true ↔
        2 ≤ ((ensureView ascEnum demoE).view.cachedView.getD []).length) :=
  ⟨(claim8_thm ascEnum demoE 0 5).1, (claim8_thm ascEnum demoE 0 5).2.1 (by decide),
    (claim8_thm ascEnum demoE 2 1).2.2.2⟩

-- ===========================================================================
-- Claim C9
-- ===========================================================================

def c9base : GridStore := (insertS (getOk (gridNew [colId])) [(bs "id", .str (bs "a"))]).1

def c9after : GridStore := (updateS c9base (bs "a") [(bs "id", .str (bs "zzz"))]).1

/-- C9 counterexample: `update` (unlike `batch_update`) does not skip the
`"id"` key, and nothing protects the primary-key column: updating row
`"a"` with `{id: "zzz"}` overwrites the stored primary-key cell, where
the claim says the `id` key is ignored and the primary key unchanged. -/
theorem claim9_counterexample :
    getCell c9base 0 (bs "id") = JVal.str (bs "a") ∧
      getCell c9after 0 (bs "id") = JVal.str (bs "zzz") := by
  constructor <;> decide

theorem getp_setCellValue_ne (s : GridStore) (r ci0 : ℕ) (v : JVal) {ci : ℕ} (h : ci0 ≠ ci) :
    (setCellValue s r ci0 v).columns.get? ci = s.columns.get? ci := by
  unfold setCellValue
  cases hg : s.columns.get? ci0 with
  | none => rfl
  | some c =>
    show (s.columns.set ci0 { c with data := setCellData c.data r v }).get? ci =
      s.columns.get? ci
    exact List.get?_set_ne _ _ h

theorem colJs_setCellValue_ne {s : GridStore} {r ci : ℕ} {v : JVal} {r' : ℕ} (h : r' ≠ r)
    (ci' : ℕ) : colJs (setCellValue s r ci v) r' ci' = colJs s r' ci' := by
  unfold setCellValue colJs
  cases hg : s.columns.get? ci with
  | none => rfl
  | some c =>
    by_cases hci : ci' = ci
    · subst hci
      simp only [List.get?_set_eq, hg, Option.map_eq_map, Option.map_some']
      exact toJsValue_setCellData_ne h v
    · simp only [List.get?_set_ne _ _ (fun he => hci he.symm)]

theorem colJs_cellFold_ne (rowIdx : ℕ) (changes : JObj) (skipId : Bool)
    (l : List (Bytes × JVal)) (s : GridStore) {r' : ℕ} (h : r' ≠ rowIdx) (ci : ℕ) :
    colJs
        (l.foldl
          (fun acc kv =>
            if skipId ∧ kv.1 = bs "id" then acc
            else
              match alookup acc.colIndex kv.1 with
              | some ci => setCellValue acc rowIdx ci (jget changes kv.1)
              | none => acc) s) r' ci = colJs s r' ci := by
  induction l generalizing s with
  | nil => rfl
  | cons kv l ih =>
    simp only [List.foldl_cons]
    rw [ih]
    by_cases hskip : skipId ∧ kv.1 = bs "id"
    · rw [if_pos hskip]
    · rw [if_neg hskip]
      cases alookup s.colIndex kv.1 with
      | none => rfl
      | some ci0 => exact colJs_setCellValue_ne h ci

theorem cols_cellFold_untouched (rowIdx : ℕ) (changes : JObj) (skipId : Bool)
    (l : List (Bytes × JVal)) (s0 : GridStore) :
    ∀ s : GridStore, s.colIndex = s0.colIndex → ∀ {ci : ℕ},
      (∀ kv ∈ l, alookup s0.colIndex kv.1 ≠ some ci) →
      (l.foldl
          (fun acc kv =>
            if skipId ∧ kv.1 = bs "id" then acc
            else
              match alookup acc.colIndex kv.1 with
              | some ci => setCellValue acc rowIdx ci (jget changes kv.1)
              | none => acc) s).columns.get? ci = s.columns.get? ci := by
  induction l with
  | nil => intro s _ _ _; rfl
  | cons kv l ih =>
    intro s hci ci h
    simp only [List.foldl_cons]
    by_cases hskip : skipId ∧ kv.1 = bs "id"
    · rw [if_pos hskip]
      exact ih s hci fun v hv => h v (List.mem_cons_of_mem kv hv)
    · rw [if_neg hskip]
      cases halo : alookup s.colIndex kv.1 with
      | none => exact ih s hci fun v hv => h v (List.mem_cons_of_mem kv hv)
      | some ci0 =>
        have hne : ci0 ≠ ci := by
          intro he
          apply h kv (List.mem_cons_self kv l)
          rw [← hci, halo, he]
        rw [ih (setCellValue s rowIdx ci0 (jget changes kv.1))
          (((setCellValue_fields s rowIdx ci0 _).1).trans hci)
          fun v hv => h v (List.mem_cons_of_mem kv hv)]
        exact getp_setCellValue_ne s rowIdx ci0 _ hne

theorem cellFold_unknown (rowIdx : ℕ) (changes : JObj) (skipId : Bool)
    (l : List (Bytes × JVal)) (s0 : GridStore) :
    ∀ s : GridStore, s.colIndex = s0.colIndex →
      (∀ kv ∈ l, alookup s0.colIndex kv.1 = none) →
      l.foldl
          (fun acc kv =>
            if skipId ∧ kv.1 = bs "id" then acc
            else
              match alookup acc.colIndex kv.1 with
              | some ci => setCellValue acc rowIdx ci (jget changes kv.1)
              | none => acc) s = s := by
  induction l with
  | nil => intro s _ _; rfl
  | cons kv l ih =>
    intro s hci h
    simp only [List.foldl_cons]
    have hstep : (if skipId ∧ kv.1 = bs "id" then s
        else
          match alookup s.colIndex kv.1 with
          | some ci => setCellValue s rowIdx ci (jget changes kv.1)
          | none => s) = s := by
      by_cases hskip : skipId ∧ kv.1 = bs "id"
      · rw [if_pos hskip]
      · rw [if_neg hskip]
        rw [show alookup s.colIndex kv.1 = none from by
          rw [hci]; exact h kv (List.mem_cons_self kv l)]
    rw [hstep]
    exact ih s hci fun v hv => h v (List.mem_cons_of_mem kv hv)

theorem getCell_congr {s s' : GridStore} (h1 : s'.colIndex = s.colIndex)
    (h2 : s'.columns = s.columns) (row : ℕ) (name : Bytes) :
    getCell s' row name = getCell s row name := by
  unfold getCell colJs
  rw [h1, h2]

/-- C9 (amended): `update` succeeds on a found id; cells of columns not
named by any key of `changes` are unchanged, as are all cells of other
rows, and changes with only unknown keys leave everything but the view
cache untouched.  But *every* known column named in `changes` is written
— the `"id"` key is not skipped (only `batch_update` skips it) and the
primary-key column has no protection. -/
theorem claim9_thm (s : GridStore) (id : Bytes) (changes : JObj) (r : ℕ)
    (hr : alookup s.idToRow id = some r)
    (hinj : (s.colIndex.map Prod.snd).Nodup) :
    (updateS s id changes).2 = Except.ok () ∧
      (∀ name, (∀ kv ∈ changes, kv.1 ≠ name) →
        ∀ row, getCell (updateS s id changes).1 row name = getCell s row name) ∧
      (∀ row, row ≠ r → ∀ name, getCell (updateS s id changes).1 row name = getCell s row name) ∧
      ((∀ kv ∈ changes, alookup s.colIndex kv.1 = none) →
        (updateS s id changes).1 = { s with view := { s.view with cachedView := none } }) := by
  have hskel := sameSkeleton_applyCellChanges s r changes false
  have hupd1 : (updateS s id changes).1 =
      { updateRowCore s r changes false with
        view := { (updateRowCore s r changes false).view with cachedView := none } } := by
    unfold updateS
    rw [hr]
  have hupd2 : (updateS s id changes).2 = Except.ok () := by
    unfold updateS
    rw [hr]
  refine ⟨hupd2, ?_, ?_, ?_⟩
  · intro name hname row
    rw [hupd1]
    show getCell (applyCellChanges s r changes false) row name = getCell s row name
    unfold getCell
    rw [hskel.1]
    cases halo : alookup s.colIndex name with
    | none => rfl
    | some ci =>
      have huntouched : ∀ kv ∈ changes, alookup s.colIndex kv.1 ≠ some ci := by
        intro kv hkv he
        have hpair : (kv.1, ci) = (name, ci) :=
          List.inj_on_of_nodup_map hinj (alookup_mem he) (alookup_mem halo) rfl
        exact hname kv hkv (congrArg Prod.fst hpair)
      have hget := cols_cellFold_untouched r changes false changes s s rfl huntouched
      show colJs (applyCellChanges s r changes false) row ci = colJs s row ci
      unfold colJs
      rw [show (applyCellChanges s r changes false).columns.get? ci = s.columns.get? ci
        from hget]
  · intro row hrow name
    rw [hupd1]
    show getCell (applyCellChanges s r changes false) row name = getCell s row name
    unfold getCell
    rw [hskel.1]
    cases halo : alookup s.colIndex name with
    | none => rfl
    | some ci => exact colJs_cellFold_ne r changes false changes s hrow ci
  · intro hall
    rw [hupd1]
    have hs1 : applyCellChanges s r changes false = s :=
      cellFold_unknown r changes false changes s s rfl hall
    show ({ updateRowCore s r changes false with
      view := { (updateRowCore s r changes false).view with cachedView := none } } :
        GridStore) = _
    unfold updateRowCore
    rw [hs1]
    dsimp only []
    rw [if_neg fun hne => hne rfl]

theorem claim9_witness :
    (updateS c9base (bs "a") [(bs "id", JVal.str (bs "zzz"))]).2 = Except.ok () ∧
      (∀ name, (∀ kv ∈ [((bs "id" : Bytes), JVal.str (bs "zzz"))], kv.1 ≠ name) →
        ∀ row, getCell (updateS c9base (bs "a") [(bs "id", JVal.str (bs "zzz"))]).1 row name =
          getCell c9base row name) ∧
      (∀ row, row ≠ 0 → ∀ name,
        getCell (updateS c9base (bs "a") [(bs "id", JVal.str (bs "zzz"))]).1 row name =
          getCell c9base row name) ∧
      ((∀ kv ∈ [((bs "id" : Bytes), JVal.str (bs "zzz"))],
          alookup c9base.colIndex kv.1 = none) →
        (updateS c9base (bs "a") [(bs "id", JVal.str (bs "zzz"))]).1 =
          { c9base with view := { c9base.view with cachedView := none } }) :=
  claim9_thm c9base (bs "a") [(bs "id", JVal.str (bs "zzz"))] 0 (by decide) (by decide)

-- ===========================================================================
-- Claim C10
-- ===========================================================================

def c10s : GridStore :=
  (insertS (getOk (gridNew [colId, colSym, colPx]))
    [(bs "id", .str (bs "w")), (bs "sym", .num (some 7)), (bs "px", .str (bs "oops"))]).1

/-- C10: wrong-typed field values are silently coerced to the column's
null on both the insert path (`pushVal`, from `insert_row_internal`) and
the update path (`setCellData`, from `set_cell_value`): a non-string in a
string column stores the empty string, a non-number in a number column
stores NaN.  No error is reported, and `getCell` projects such cells to
the null-equivalent (the empty string resp. JS `null`): inserting
`{id:"w", sym: 7, px: "oops"}` succeeds and reads back `""` and `null`. -/
theorem claim10_thm :
    (∀ (w : List Bytes) (v : JVal), asString v = none →
      pushVal (ColData.strs w) v = ColData.strs (w ++ [[]])) ∧
      (∀ (w : List (Option ℚ)) (v : JVal), asF64 v = none →
        pushVal (ColData.nums w) v = ColData.nums (w ++ [none])) ∧
      (∀ (w : List Bytes) (v : JVal) (i : ℕ), i < w.length → asString v = none →
        setCellData (ColData.strs w) i v = ColData.strs (w.set i [])) ∧
      (∀ (w : List (Option ℚ)) (v : JVal) (i : ℕ), i < w.length → asF64 v = none →
        setCellData (ColData.nums w) i v = ColData.nums (w.set i none)) ∧
      (insertS (getOk (gridNew [colId, colSym, colPx]))
        [(bs "id", .str (bs "w")), (bs "sym", .num (some 7)), (bs "px", .str (bs "oops"))]).2 =
        Except.ok 0 ∧
      getCell c10s 0 (bs "sym") = JVal.str [] ∧
      getCell c10s 0 (bs "px") = JVal.null := by
  refine ⟨?_, ?_, ?_, ?_, ?_, ?_, ?_⟩
  · intro w v h
    unfold pushVal
    rw [h]
    rfl
  · intro w v h
    unfold pushVal
    rw [h]
    rfl
  · intro w v i hi h
    show (if i < w.length then ColData.strs (w.set i ((asString v).getD []))
      else ColData.strs w) = _
    rw [h, if_pos hi]
    rfl
  · intro w v i hi h
    show (if i < w.length then ColData.nums (w.set i ((asF64 v).getD none))
      else ColData.nums w) = _
    rw [h, if_pos hi]
    rfl
  all_goals decide

theorem claim10_witness :
    pushVal (ColData.strs []) (JVal.num (some 1)) = ColData.strs [[]] ∧
      pushVal (ColData.nums []) (JVal.str (bs "x")) = ColData.nums [none] ∧
      setCellData (ColData.strs [bs "y"]) 0 JVal.null = ColData.strs [[]] ∧
      setCellData (ColData.nums [some 2]) 0 (JVal.jbool true) = ColData.nums [none] :=
  ⟨claim10_thm.1 [] _ rfl, claim10_thm.2.1 [] _ rfl,
    claim10_thm.2.2.1 [bs "y"] _ 0 (by decide) rfl,
    claim10_thm.2.2.2.1 [some 2] _ 0 (by decide) rfl⟩
